import Mathlib

/-!
Verification of the ChanLun structural-decomposition engine.

This file is a shallow embedding, in Lean 4, of the computation engine found
in the repository (the kline inclusion merge, fractal identification, stroke
generation, segment generation via characteristic sequences, pivot
construction, and signal analysis), together with proofs of the structural
invariants and functional-correctness statements claimed by the
specification.

Modelling conventions:
- JavaScript numbers used as prices / MACD values are modelled as rationals
  (the engine only adds, multiplies by constants, compares, and takes
  min/max, so the embedding is exact on rational inputs).
- Timestamps are modelled as integers, array indices as naturals; values
  that the source allows to be -1 (the result of a failed findIndex) are
  modelled as integers.
- Arrays are modelled as lists; in-place mutation of the last element of a
  result array is modelled by threading an accumulator (kept in reverse
  order, so the head of the accumulator is the last array element).
- While loops whose progress is evident but not structural are modelled
  with an explicit fuel parameter that provably dominates the number of
  iterations (each iteration strictly advances the loop index, which is
  bounded by the list length); the fuel-exhausted fallback coincides with
  the loop-exit behaviour of the source.
-/

/-- One OHLCV candle, as supplied to the engine (the source interface Kline);
the open field is renamed opn since open is a Lean keyword. -/
structure Kline where
  time : Int
  opn : Rat
  high : Rat
  low : Rat
  close : Rat
  volume : Rat
deriving DecidableEq, Repr, Inhabited

/-- A merged candle: a Kline together with the span of original indices it
owns and the list of constituent Klines (the source interface MergedKline). -/
structure MergedKline extends Kline where
  originalStartIndex : Nat
  originalEndIndex : Nat
  children : List Kline
deriving DecidableEq, Repr, Inhabited

/-- Fractal point type: top or bottom. -/
inductive PointType where
  | top
  | bottom
deriving DecidableEq, Repr, Inhabited

/-- Direction of a stroke or segment: up or down. -/
inductive BiDir where
  | up
  | down
deriving DecidableEq, Repr, Inhabited

/-- A fractal / confirmed point (the source interface ChanPoint). -/
structure ChanPoint where
  index : Int
  price : Rat
  type : PointType
  time : Int
  isFractal : Bool
deriving DecidableEq, Repr, Inhabited

/-- A stroke (the source interface ChanBi). -/
structure ChanBi where
  start : ChanPoint
  stop : ChanPoint
  type : BiDir
  isValid : Bool
deriving DecidableEq, Repr, Inhabited

/-- A segment (the source interface ChanSeg). -/
structure ChanSeg where
  start : ChanPoint
  stop : ChanPoint
  type : BiDir
  biList : List ChanBi
deriving DecidableEq, Repr, Inhabited

/-- Pivot direction label. -/
inductive PivotDir where
  | neutral
  | up
  | down
deriving DecidableEq, Repr, Inhabited

/-- Pivot granularity: stroke level (bi) or segment level (seg). -/
inductive PivotLevel where
  | bi
  | seg
deriving DecidableEq, Repr, Inhabited

/-- A pivot / consolidation band (the source interface ChanPivot). -/
structure ChanPivot where
  startBiIndex : Nat
  endBiIndex : Nat
  zg : Rat
  zd : Rat
  gg : Rat
  dd : Rat
  direction : PivotDir
  startTime : Int
  endTime : Int
  level : PivotLevel
deriving DecidableEq, Repr, Inhabited

/-- Buy/sell point kind, mirroring the string union in the source. -/
inductive BSType where
  | b1
  | b2
  | b3
  | s1
  | s2
  | s3
deriving DecidableEq, Repr, Inhabited

/-- A buy/sell signal (the source interface BuySellPoint). -/
structure BuySellPoint where
  type : BSType
  price : Rat
  time : Int
  desc : String
  isSegmentLevel : Bool
deriving DecidableEq, Repr, Inhabited

/-- Stroke validity mode. -/
inductive BiType where
  | old
  | new
  | fractal
  | custom
deriving DecidableEq, Repr, Inhabited

/-- The engine settings actually read by the computation (subset of the
source interface AppSettings). -/
structure AppSettings where
  biType : BiType
  biKCount : Nat
  macdFast : Nat
  macdSlow : Nat
  macdSignal : Nat
deriving DecidableEq, Repr, Inhabited

/-- One MACD sample (the source interface MACDResult). -/
structure MACDResult where
  dif : Rat
  dea : Rat
  hist : Rat
deriving DecidableEq, Repr, Inhabited

/-- Trend label. -/
inductive Trend where
  | up
  | down
  | consolidation
deriving DecidableEq, Repr, Inhabited

/-- Divergence summary returned by the analysis. -/
structure Divergence where
  isDivergent : Bool
  dtype : Option PointType
  strength : Rat
  description : String
deriving DecidableEq, Repr, Inhabited

/-- The full engine output (the source interface ChanLunFeatures). -/
structure ChanLunFeatures where
  klines : List MergedKline
  fractals : List ChanPoint
  biList : List ChanBi
  segList : List ChanSeg
  pivots : List ChanPivot
  buySellPoints : List BuySellPoint
  divergence : Divergence
  trend : Trend
deriving DecidableEq, Repr, Inhabited

/-! ## Stage 1: inclusion processing (processInclusionStrict) -/

/-- Containment test used throughout the engine: the range of a lies inside
the range of b (a.high less-or-equal b.high and a.low greater-or-equal b.low). -/
def rangeIn (aHigh aLow bHigh bLow : Rat) : Prop :=
  aHigh ≤ bHigh ∧ aLow ≥ bLow

instance (aHigh aLow bHigh bLow : Rat) : Decidable (rangeIn aHigh aLow bHigh bLow) := by
  unfold rangeIn; infer_instance

/-- One iteration of the inclusion loop: given the accumulator (the result
array in reverse, head = last element), the running direction, the current
original index i, and the incoming kline, produce the new accumulator and
direction.  Mirrors the body of the for loop in processInclusionStrict. -/
def inclusionStep (acc : List MergedKline) (direction : Int) (i : Nat)
    (nextK : Kline) : List MergedKline × Int :=
  match acc with
  | [] => (acc, direction)
  | lastK :: accRest =>
    if rangeIn nextK.high nextK.low lastK.high lastK.low ∨
       rangeIn lastK.high lastK.low nextK.high nextK.low then
      -- inclusion: merge nextK into lastK
      let dir1 : Int :=
        if direction = 0 then
          match accRest with
          | prevK :: _ => if lastK.high > prevK.high then 1 else -1
          | [] => 1
        else direction
      let newHigh : Rat :=
        if dir1 = 1 then max lastK.high nextK.high else min lastK.high nextK.high
      let newLow : Rat :=
        if dir1 = 1 then max lastK.low nextK.low else min lastK.low nextK.low
      ({ lastK with
          high := newHigh
          low := newLow
          time := nextK.time
          originalEndIndex := i
          children := lastK.children ++ [nextK] } :: accRest, dir1)
    else
      -- no inclusion: push a fresh merged kline, updating the direction
      let dir1 : Int :=
        if nextK.high > lastK.high ∧ nextK.low > lastK.low then 1
        else if nextK.high < lastK.high ∧ nextK.low < lastK.low then -1
        else direction
      ({ toKline := nextK
         originalStartIndex := i
         originalEndIndex := i
         children := [nextK] } :: lastK :: accRest, dir1)

/-- The tail of the inclusion loop over the remaining klines. -/
def inclusionGo (acc : List MergedKline) (direction : Int) (i : Nat) :
    List Kline → List MergedKline
  | [] => acc.reverse
  | nextK :: rest =>
    let s := inclusionStep acc direction i nextK
    inclusionGo s.1 s.2 (i + 1) rest

/-- Strict recursive inclusion processing of the raw klines (the source
function processInclusionStrict). -/
def processInclusionStrict (klines : List Kline) : List MergedKline :=
  match klines with
  | [] => []
  | k0 :: rest =>
    inclusionGo [{ toKline := k0, originalStartIndex := 0, originalEndIndex := 0,
                   children := [k0] }] 0 1 rest

/-! ## Stage 2: fractal identification (identifyFractals) -/

/-- The point pushed for a top fractal at merged kline curr. -/
def topPointOf (curr : MergedKline) : ChanPoint :=
  { index := (curr.originalEndIndex : Int), price := curr.high,
    type := PointType.top, time := curr.time, isFractal := true }

/-- The point pushed for a bottom fractal at merged kline curr. -/
def botPointOf (curr : MergedKline) : ChanPoint :=
  { index := (curr.originalEndIndex : Int), price := curr.low,
    type := PointType.bottom, time := curr.time, isFractal := true }

/-- Window scan underlying identifyFractals: prev and curr are the two
klines preceding the remaining list; each step examines the interior kline
curr against its neighbours. -/
def fractalScan (prev curr : MergedKline) : List MergedKline → List ChanPoint
  | [] => []
  | next :: rest =>
    (if curr.high > prev.high ∧ curr.high > next.high then [topPointOf curr]
     else if curr.low < prev.low ∧ curr.low < next.low then [botPointOf curr]
     else []) ++ fractalScan curr next rest

/-- Fractal identification over the merged klines (the source function
identifyFractals); lists shorter than 3 yield no fractals. -/
def identifyFractals : List MergedKline → List ChanPoint
  | a :: b :: rest => fractalScan a b rest
  | _ => []

/-! ## Stage 3: stroke generation (generateBi) -/

/-- The filter of consecutive same-type fractals (step 3.1 of generateBi):
acc is the rawPoints array in reverse (head = lastPt). -/
def altFilterGo (acc : List ChanPoint) : List ChanPoint → List ChanPoint
  | [] => acc.reverse
  | curr :: rest =>
    match acc with
    | [] => altFilterGo [curr] rest
    | lastPt :: accRest =>
      if curr.type = lastPt.type then
        if curr.type = PointType.top ∧ curr.price > lastPt.price then
          altFilterGo (curr :: accRest) rest
        else if curr.type = PointType.bottom ∧ curr.price < lastPt.price then
          altFilterGo (curr :: accRest) rest
        else
          altFilterGo (lastPt :: accRest) rest
      else
        altFilterGo (curr :: lastPt :: accRest) rest

/-- Alternation filter over the fractal list (step 3.1 of generateBi):
retain the more extreme of consecutive same-type fractals. -/
def filterAlternation : List ChanPoint → List ChanPoint
  | [] => []
  | f0 :: rest => altFilterGo [f0] rest

/-- Index of the first merged kline whose own time, or one of whose
children's times, equals t; -1 when none exists (the source findIndex
calls inside generateBi). -/
def findMKIdx (klines : List MergedKline) (t : Int) : Int :=
  match klines.findIdx? (fun k =>
    k.time = t || k.children.any (fun c => c.time = t)) with
  | some n => (n : Int)
  | none => -1

/-- The merged-kline distance between two points (the kCount local of
generateBi): absolute difference of the two findIndex results. -/
def kCountOf (klines : List MergedKline) (a b : ChanPoint) : Nat :=
  (findMKIdx klines b.time - findMKIdx klines a.time).natAbs

/-- Validity of the stroke between two adjacent alternation-filtered points,
by mode (the switch inside generateBi). -/
def biPairValid (klines : List MergedKline) (s : AppSettings)
    (a b : ChanPoint) : Bool :=
  let kCount := kCountOf klines a b
  match s.biType with
  | BiType.old => kCount ≥ 4
  | BiType.new => kCount ≥ 3
  | BiType.fractal => true
  | BiType.custom => kCount ≥ (if s.biKCount = 0 then 5 else s.biKCount) - 1

/-- The stroke built from an accepted pair of points. -/
def mkBi (a b : ChanPoint) : ChanBi :=
  { start := a, stop := b,
    type := if a.type = PointType.bottom then BiDir.up else BiDir.down,
    isValid := true }

/-- Step 3.2 of generateBi: validate each adjacent pair of filtered points. -/
def validBiOf (rawPoints : List ChanPoint) (klines : List MergedKline)
    (s : AppSettings) : List ChanBi :=
  (List.range (rawPoints.length - 1)).filterMap (fun i =>
    let a := rawPoints.getD i default
    let b := rawPoints.getD (i + 1) default
    if biPairValid klines s a b then some (mkBi a b) else none)

/-- Step 3.3 of generateBi (ensure continuity): the source loop pushes the
current stroke in both the connected and the gap branch, so it returns the
valid strokes unchanged; it is transcribed literally here. -/
def ensureContinuity : List ChanBi → List ChanBi
  | [] => []
  | b0 :: rest => go b0 rest
where
  go (currentBi : ChanBi) : List ChanBi → List ChanBi
  | [] => [currentBi]
  | nxt :: rest =>
    if currentBi.stop.time = nxt.start.time then currentBi :: go nxt rest
    else currentBi :: go nxt rest

/-- Stroke generation (the source function generateBi). -/
def generateBi (fractals : List ChanPoint) (klines : List MergedKline)
    (s : AppSettings) : List ChanBi :=
  if fractals.length < 2 then []
  else
    let rawPoints := filterAlternation fractals
    if rawPoints.length < 2 then []
    else
      let validBi := validBiOf rawPoints klines s
      if validBi.length = 0 then [] else ensureContinuity validBi

/-! ## Stage 4: segment generation (generateSegmentsStrict) -/

/-- High endpoint price of a stroke's range. -/
def biHigh (b : ChanBi) : Rat := max b.start.price b.stop.price

/-- Low endpoint price of a stroke's range. -/
def biLow (b : ChanBi) : Rat := min b.start.price b.stop.price

/-- The body of the scan loop of checkSegmentDestruction: does the candidate
stroke at index i confirm termination of a segment of direction t?  Every
continue of the source body becomes false. -/
def destructionAt (biList : List ChanBi) (t : BiDir) (i : Nat) : Bool :=
  let candidateBi := biList.getD i default
  if candidateBi.type ≠ t then false
  else if biList.length ≤ i + 3 then false
  else
    let f1 := biList.getD (i + 1) default
    let f2 := biList.getD (i + 3) default
    let f1H := biHigh f1
    let f1L := biLow f1
    let f2H := biHigh f2
    let f2L := biLow f2
    let hasInclusion := (f2H ≤ f1H ∧ f2L ≥ f1L) ∨ (f1H ≤ f2H ∧ f1L ≥ f2L)
    if hasInclusion ∧ biList.length ≤ i + 5 then false
    else
      let mergedF1H :=
        if hasInclusion then
          (if t = BiDir.up then min f1H f2H else max f1H f2H) else f1H
      let mergedF1L :=
        if hasInclusion then
          (if t = BiDir.up then min f1L f2L else max f1L f2L) else f1L
      let f3 := biList.getD (i + 5) default
      let effectiveF2H := if hasInclusion then biHigh f3 else f2H
      let effectiveF2L := if hasInclusion then biLow f3 else f2L
      let peakPrice := candidateBi.stop.price
      let reboundBi := biList.getD (if hasInclusion then i + 4 else i + 2) default
      if t = BiDir.up then
        decide (effectiveF2H < mergedF1H ∧ effectiveF2L < mergedF1L ∧
                reboundBi.stop.price < peakPrice)
      else
        decide (effectiveF2H > mergedF1H ∧ effectiveF2L > mergedF1L ∧
                reboundBi.stop.price > peakPrice)

/-- Search for the first destruction point of a segment of direction t
starting at startIndex: the source scans i from startIndex while i is
strictly below length minus 3 and returns the first index whose candidate
confirms destruction, -1 (modelled as none) otherwise. -/
def checkSegmentDestruction (biList : List ChanBi) (startIndex : Nat)
    (t : BiDir) : Option Nat :=
  (List.range' startIndex (biList.length - 3 - startIndex)).find?
    (fun i => destructionAt biList t i)

/-- Flip a direction. -/
def flipDir : BiDir → BiDir
  | BiDir.up => BiDir.down
  | BiDir.down => BiDir.up

/-- The open-ended closing segment emitted when no destruction is found:
it extends from the stroke at startBiIndex to the end of the stroke list. -/
def closingSeg (biList : List ChanBi) (startBiIndex : Nat) (t : BiDir) : ChanSeg :=
  { start := (biList.getD startBiIndex default).start,
    stop := (biList.getD (biList.length - 1) default).stop,
    type := t,
    biList := biList.drop startBiIndex }

/-- A confirmed segment covering the strokes from startBiIndex to
potentialEndIndex inclusive. -/
def confirmedSeg (biList : List ChanBi) (startBiIndex potentialEndIndex : Nat)
    (t : BiDir) : ChanSeg :=
  { start := (biList.getD startBiIndex default).start,
    stop := (biList.getD potentialEndIndex default).stop,
    type := t,
    biList := (biList.drop startBiIndex).take (potentialEndIndex + 1 - startBiIndex) }

/-- The while loop of generateSegmentsStrict.  The loop index always stays
below the list length in the source (every destruction index is at most
length minus 4), so the loop is driven by fuel; the fuel-exhausted fallback
emits the same closing segment as the no-destruction exit.  Each iteration
either strictly increases startBiIndex or (at most once, for the very first
candidate) keeps it while flipping the direction, so fuel equal to twice the
list length plus two is never exhausted. -/
def segLoopGo (biList : List ChanBi) : Nat → Nat → BiDir → List ChanSeg
  | 0, startBiIndex, t => [closingSeg biList startBiIndex t]
  | fuel + 1, startBiIndex, t =>
    match checkSegmentDestruction biList startBiIndex t with
    | none => [closingSeg biList startBiIndex t]
    | some potentialEndIndex =>
      confirmedSeg biList startBiIndex potentialEndIndex t ::
        segLoopGo biList fuel potentialEndIndex (flipDir t)

/-- Segment generation by characteristic-sequence destruction (the source
function generateSegmentsStrict). -/
def generateSegmentsStrict (biList : List ChanBi) : List ChanSeg :=
  if biList.length < 3 then []
  else segLoopGo biList (2 * biList.length + 2) 0 (biList.headD default).type

/-! ## Stage 5: pivot generation (generatePivotsFromBi / generatePivotsFromSeg) -/

/-- The pivot extension loop (YanShen): absorb subsequent strokes while
their range still overlaps the zg/zd band, accumulating gg (maximum of all
highs) and dd (minimum of all lows); returns the final end index, gg and dd.
The loop index j strictly increases and is bounded by the list length, so
fuel equal to the list length dominates the iteration count. -/
def pivotExtendGo (biList : List ChanBi) (zg zd : Rat) :
    Nat → Nat → Nat → Rat → Rat → Nat × Rat × Rat
  | 0, _, endBiIdx, gg, dd => (endBiIdx, gg, dd)
  | fuel + 1, j, endBiIdx, gg, dd =>
    if j < biList.length then
      let nextBi := biList.getD j default
      let h := biHigh nextBi
      let l := biLow nextBi
      if min h zg > max l zd then
        pivotExtendGo biList zg zd fuel (j + 1) j (max gg h) (min dd l)
      else (endBiIdx, gg, dd)
    else (endBiIdx, gg, dd)

/-- The main scan loop of generatePivotsFromBi.  The loop index i strictly
increases on every path (by one, or to the end of an absorbed pivot), so
fuel equal to the list length plus one dominates the iteration count. -/
def pivotGo (biList : List ChanBi) : Nat → Nat → List ChanPivot → List ChanPivot
  | 0, _, pivots => pivots
  | fuel + 1, i, pivots =>
    if i + 3 ≤ biList.length then
      let b1 := biList.getD i default
      let b2 := biList.getD (i + 1) default
      let b3 := biList.getD (i + 2) default
      if b1.type = b2.type then pivotGo biList fuel (i + 1) pivots
      else
        let high1 := biHigh b1
        let low1 := biLow b1
        let high2 := biHigh b2
        let low2 := biLow b2
        let high3 := biHigh b3
        let low3 := biLow b3
        let zg := min high1 (min high2 high3)
        let zd := max low1 (max low2 low3)
        if zg > zd then
          let ext := pivotExtendGo biList zg zd biList.length (i + 3) (i + 2)
            (max high1 (max high2 high3)) (min low1 (min low2 low3))
          let newPivot : ChanPivot :=
            { startBiIndex := i, endBiIndex := ext.1,
              zg := zg, zd := zd, gg := ext.2.1, dd := ext.2.2,
              direction := PivotDir.neutral,
              startTime := b1.start.time,
              endTime := (biList.getD ext.1 default).stop.time,
              level := PivotLevel.bi }
          match pivots.getLast? with
          | none => pivotGo biList fuel ext.1 (pivots ++ [newPivot])
          | some lastP =>
            if lastP.endBiIndex < i then
              pivotGo biList fuel ext.1 (pivots ++ [newPivot])
            else pivotGo biList fuel (i + 1) pivots
        else pivotGo biList fuel (i + 1) pivots
    else pivots

/-- Stroke-level pivot construction (the source generatePivotsFromBi). -/
def generatePivotsFromBi (biList : List ChanBi) : List ChanPivot :=
  if biList.length < 3 then [] else pivotGo biList (biList.length + 1) 0 []

/-- Segment-level pivot construction (the source generatePivotsFromSeg):
segments are mapped to pseudo strokes, the stroke-level routine is re-run,
and the emitted pivots are relabelled as segment level. -/
def generatePivotsFromSeg (segList : List ChanSeg) : List ChanPivot :=
  let pseudoBiList := segList.map (fun s =>
    ({ start := s.start, stop := s.stop, type := s.type, isValid := true } : ChanBi))
  (generatePivotsFromBi pseudoBiList).map (fun p => { p with level := PivotLevel.seg })

/-! ## MACD (calculateMACD from the indicators module) -/

/-- Exponential moving average (the source calculateEMA). -/
def calculateEMA (data : List Rat) (period : Nat) : List Rat :=
  match data with
  | [] => []
  | d0 :: rest =>
    let k : Rat := 2 / ((period : Rat) + 1)
    (rest.foldl (fun acc d => (d * k + acc.headD 0 * (1 - k)) :: acc) [d0]).reverse

/-- MACD series over the klines (the source calculateMACD). -/
def calculateMACD (klines : List Kline) (fastPeriod slowPeriod signalPeriod : Nat) :
    List MACDResult :=
  if klines.length = 0 then []
  else
    let closePrices := klines.map (fun k => k.close)
    let emaFast := calculateEMA closePrices fastPeriod
    let emaSlow := calculateEMA closePrices slowPeriod
    let difs := (List.range closePrices.length).map (fun i =>
      emaFast.getD i 0 - emaSlow.getD i 0)
    let dea := calculateEMA difs signalPeriod
    (List.range closePrices.length).map (fun i =>
      { dif := difs.getD i 0, dea := dea.getD i 0,
        hist := (difs.getD i 0 - dea.getD i 0) * 2 })

/-! ## Stage 6: structure and signal analysis (analyzeStructure) -/

/-- Sum of absolute MACD histogram values over an original-index range (the
getRangeMACD closure of analyzeStructure); a negative start index or an end
index beyond the series yields 0. -/
def getRangeMACD (macd : List MACDResult) (startIndex endIndex : Int) : Rat :=
  if startIndex < 0 ∨ endIndex ≥ (macd.length : Int) then 0
  else
    ((List.range' startIndex.toNat (endIndex + 1 - startIndex).toNat).map
      (fun i => |(macd.getD i default).hist|)).sum

/-- Momentum (force) of a stroke: MACD histogram area over its index range. -/
def getBiMACD (macd : List MACDResult) (bi : ChanBi) : Rat :=
  getRangeMACD macd bi.start.index bi.stop.index

/-- Momentum (force) of a segment: MACD histogram area over its index range. -/
def getSegMACD (macd : List MACDResult) (seg : ChanSeg) : Rat :=
  getRangeMACD macd seg.start.index seg.stop.index

/-- First-type divergence detection for stroke index i (the 1B/1S branch of
the bi-level loop of analyzeStructure). -/
def biDivSignals (biList : List ChanBi) (macd : List MACDResult) (i : Nat) :
    List BuySellPoint :=
  let curr := biList.getD i default
  let prev := biList.getD (i - 2) default
  if curr.type = BiDir.down ∧ curr.stop.price < prev.stop.price then
    (if getBiMACD macd curr < getBiMACD macd prev * (9 / 10 : Rat) then
      [{ type := BSType.b1, price := curr.stop.price, time := curr.stop.time,
         desc := "一买 (盘背)", isSegmentLevel := false }]
     else [])
  else if curr.type = BiDir.up ∧ curr.stop.price > prev.stop.price then
    (if getBiMACD macd curr < getBiMACD macd prev * (9 / 10 : Rat) then
      [{ type := BSType.s1, price := curr.stop.price, time := curr.stop.time,
         desc := "一卖 (盘背)", isSegmentLevel := false }]
     else [])
  else []

/-- Third-type signal detection for stroke index i (the 3B/3S branch of the
bi-level loop of analyzeStructure). -/
def biThirdSignals (biList : List ChanBi) (biPivots : List ChanPivot) (i : Nat) :
    List BuySellPoint :=
  let curr := biList.getD i default
  match biPivots.find? (fun p => p.endBiIndex = i - 2) with
  | none => []
  | some pivot =>
    let breakout := biList.getD (i - 1) default
    (if curr.type = BiDir.down ∧ breakout.type = BiDir.up ∧
        breakout.stop.price > pivot.zg ∧ curr.stop.price > pivot.zg then
      [{ type := BSType.b3, price := curr.stop.price, time := curr.stop.time,
         desc := "三买 (中枢破坏)", isSegmentLevel := false }]
     else []) ++
    (if curr.type = BiDir.up ∧ breakout.type = BiDir.down ∧
        breakout.stop.price < pivot.zd ∧ curr.stop.price < pivot.zd then
      [{ type := BSType.s3, price := curr.stop.price, time := curr.stop.time,
         desc := "三卖 (中枢破坏)", isSegmentLevel := false }]
     else [])

/-- Segment-level first-type divergence detection for segment index i (the
segment loop of analyzeStructure, with the 80 percent threshold). -/
def segDivSignals (segList : List ChanSeg) (macd : List MACDResult) (i : Nat) :
    List BuySellPoint :=
  let curr := segList.getD i default
  let prev := segList.getD (i - 2) default
  if curr.type = BiDir.down ∧ curr.stop.price < prev.stop.price then
    (if getSegMACD macd curr < getSegMACD macd prev * (8 / 10 : Rat) then
      [{ type := BSType.b1, price := curr.stop.price, time := curr.stop.time,
         desc := "🔥线段底背驰", isSegmentLevel := true }]
     else [])
  else if curr.type = BiDir.up ∧ curr.stop.price > prev.stop.price then
    (if getSegMACD macd curr < getSegMACD macd prev * (8 / 10 : Rat) then
      [{ type := BSType.s1, price := curr.stop.price, time := curr.stop.time,
         desc := "🔥线段顶背驰", isSegmentLevel := true }]
     else [])
  else []

/-- Result record of analyzeStructure. -/
structure AnalysisOut where
  buySellPoints : List BuySellPoint
  divergence : Divergence
  trend : Trend
deriving DecidableEq, Repr, Inhabited

/-- The inactive divergence default. -/
def inactiveDivergence : Divergence :=
  { isDivergent := false, dtype := none, strength := 0, description := "" }

/-- Structure and signal analysis (the source function analyzeStructure). -/
def analyzeStructure (biList : List ChanBi) (segList : List ChanSeg)
    (biPivots segPivots : List ChanPivot) (macd : List MACDResult)
    (klines : List Kline) : AnalysisOut :=
  let activePivots := if segPivots.length ≥ 2 then segPivots else biPivots
  let trend : Trend :=
    if activePivots.length ≥ 2 then
      let lastP := activePivots.getD (activePivots.length - 1) default
      let prevP := activePivots.getD (activePivots.length - 2) default
      if lastP.zd > prevP.zg then Trend.up
      else if lastP.zg < prevP.zd then Trend.down
      else Trend.consolidation
    else if biList.length > 0 then
      if (biList.getD (biList.length - 1) default).type = BiDir.up then Trend.up
      else Trend.down
    else Trend.consolidation
  let biPart := (List.range' 2 (biList.length - 2)).flatMap (fun i =>
    biDivSignals biList macd i ++ biThirdSignals biList biPivots i)
  let segPart := (List.range' 2 (segList.length - 2)).flatMap (fun i =>
    segDivSignals segList macd i)
  let buySellPoints := biPart ++ segPart
  let divergence : Divergence :=
    match buySellPoints.getLast? with
    | none => inactiveDivergence
    | some lastSignal =>
      if lastSignal.type = BSType.b1 ∨ lastSignal.type = BSType.s1 then
        if klines.length > 0 ∧
           |lastSignal.time - (klines.getD (klines.length - 1) default).time| <
             3600 * 1000 * 10 then
          { isDivergent := true,
            dtype := if lastSignal.type = BSType.b1 then some PointType.bottom
                     else some PointType.top,
            strength := (95 / 100 : Rat),
            description := lastSignal.desc }
        else inactiveDivergence
      else inactiveDivergence
  { buySellPoints := buySellPoints, divergence := divergence, trend := trend }

/-! ## The engine entry point (calculateChanLun) -/

/-- The canonical empty result (the source function emptyResult). -/
def emptyResult : ChanLunFeatures :=
  { klines := [], fractals := [], biList := [], segList := [], pivots := [],
    buySellPoints := [], divergence := inactiveDivergence,
    trend := Trend.consolidation }

/-- The full engine (the source function calculateChanLun): inputs shorter
than 10 klines yield the canonical empty result, otherwise the six stages
are run in sequence. -/
def calculateChanLun (klines : List Kline) (settings : AppSettings) :
    ChanLunFeatures :=
  if klines.length < 10 then emptyResult
  else
    let mergedKlines := processInclusionStrict klines
    let fractals := identifyFractals mergedKlines
    let biList := generateBi fractals mergedKlines settings
    let segList := generateSegmentsStrict biList
    let biPivots := generatePivotsFromBi biList
    let segPivots := generatePivotsFromSeg segList
    let allPivots := (biPivots ++ segPivots).mergeSort
      (fun a b => a.startTime ≤ b.startTime)
    let macd := calculateMACD klines settings.macdFast settings.macdSlow
      settings.macdSignal
    let analysis := analyzeStructure biList segList biPivots segPivots macd klines
    { klines := mergedKlines, fractals := fractals, biList := biList,
      segList := segList, pivots := allPivots,
      buySellPoints := analysis.buySellPoints,
      divergence := analysis.divergence, trend := analysis.trend }

/-! ## Concrete example inputs used by witnesses and counterexamples -/

/-- Helper to build a kline with the fields the engine reads. -/
def mkKline (t : Int) (h l c : Rat) : Kline :=
  { time := t, opn := c, high := h, low := l, close := c, volume := 0 }

/-- A nine-bar input, below the ten-bar minimum. -/
def nineBars : List Kline := (List.range 9).map (fun i => mkKline i 10 5 7)

/-- Default-style settings (old stroke mode, standard MACD periods). -/
def exSettings : AppSettings :=
  { biType := BiType.old, biKCount := 5, macdFast := 12, macdSlow := 26,
    macdSignal := 9 }

/-! ## Claim C9 -/

/-- Claim C9: for every input bar array of length strictly less than 10, the
engine returns the canonical empty result (empty merged-bar, fractal,
stroke, segment, pivot and signal lists, trend consolidation, inactive
divergence) rather than an error. -/
theorem c9_short_input_yields_empty (klines : List Kline) (s : AppSettings)
    (h : klines.length < 10) :
    calculateChanLun klines s = emptyResult ∧
    (calculateChanLun klines s).klines = [] ∧
    (calculateChanLun klines s).fractals = [] ∧
    (calculateChanLun klines s).biList = [] ∧
    (calculateChanLun klines s).segList = [] ∧
    (calculateChanLun klines s).pivots = [] ∧
    (calculateChanLun klines s).buySellPoints = [] ∧
    (calculateChanLun klines s).trend = Trend.consolidation ∧
    (calculateChanLun klines s).divergence.isDivergent = false := by
  have he : calculateChanLun klines s = emptyResult := by
    unfold calculateChanLun
    simp [h]
  refine ⟨he, ?_, ?_, ?_, ?_, ?_, ?_, ?_, ?_⟩ <;>
    simp [he, emptyResult, inactiveDivergence]

/-- Witness for C9 at a concrete nine-bar input. -/
theorem c9_short_input_yields_empty_witness :
    nineBars.length < 10 ∧ calculateChanLun nineBars exSettings = emptyResult :=
  ⟨by decide, (c9_short_input_yields_empty nineBars exSettings (by decide)).1⟩


/-! ## Claims C2 and C10: invariants of inclusion processing -/

/-- Two merged klines that each fail to contain the other. -/
def noMutualContainment (a b : MergedKline) : Prop :=
  ¬ rangeIn b.high b.low a.high a.low ∧ ¬ rangeIn a.high a.low b.high b.low

/-- Internal invariant of the inclusion loop: the accumulator is nonempty,
and once it holds at least two merged klines the direction accumulator is
plus or minus one and records the strict relation between the last two. -/
def InclInv : List MergedKline → Int → Prop
  | [], _ => False
  | [_], d => d = 0 ∨ d = 1
  | last :: prev :: _, d =>
      (d = 1 ∧ prev.high < last.high ∧ prev.low < last.low) ∨
      (d = -1 ∧ last.high < prev.high ∧ last.low < prev.low)

/-- A non-contained incoming kline moves strictly up or strictly down
relative to the previous merged kline. -/
lemma not_contained_strict (nH nL lH lL : Rat)
    (h : ¬ (rangeIn nH nL lH lL ∨ rangeIn lH lL nH nL)) :
    (nH > lH ∧ nL > lL) ∨ (nH < lH ∧ nL < lL) := by
  unfold rangeIn at h
  push_neg at h
  obtain ⟨h1, h2⟩ := h
  rcases lt_trichotomy nH lH with hlt | heq | hgt
  · exact Or.inr ⟨hlt, h1 hlt.le⟩
  · exact absurd (h1 heq.le) (not_lt_of_le (h2 heq.ge).le)
  · exact Or.inl ⟨hgt, h2 hgt.le⟩

/-- The inclusion step preserves the direction invariant and the adjacent
non-containment chain. -/
lemma inclusionStep_inv (acc : List MergedKline) (d : Int) (i : Nat) (k : Kline)
    (hinv : InclInv acc d) (hch : List.Chain' noMutualContainment acc) :
    InclInv (inclusionStep acc d i k).1 (inclusionStep acc d i k).2 ∧
    List.Chain' noMutualContainment (inclusionStep acc d i k).1 := by
  match acc with
  | [] => exact absurd hinv (by simp [InclInv])
  | lastK :: accRest =>
    by_cases hcont : rangeIn k.high k.low lastK.high lastK.low ∨
        rangeIn lastK.high lastK.low k.high k.low
    · -- merge branch
      match accRest with
      | [] =>
        have hd : d = 0 ∨ d = 1 := hinv
        rcases hd with hd | hd <;>
          simp [inclusionStep, hcont, hd, InclInv]
      | prevK :: rest =>
        rcases hinv with ⟨hd, h1, h2⟩ | ⟨hd, h1, h2⟩
        · -- direction up: merged bar keeps a high and a low above prevK
          have hne : d ≠ 0 := by rw [hd]; decide
          have hmh : prevK.high < lastK.high ⊔ k.high :=
            lt_of_lt_of_le h1 (le_max_left _ _)
          have hml : prevK.low < lastK.low ⊔ k.low :=
            lt_of_lt_of_le h2 (le_max_left _ _)
          simp only [inclusionStep, if_pos hcont, if_neg hne, hd]
          refine ⟨Or.inl ⟨rfl, hmh, hml⟩,
            List.chain'_cons.mpr ⟨⟨?_, ?_⟩, hch.tail⟩⟩
          · intro hc
            obtain ⟨-, hc2⟩ := hc
            exact absurd hc2 (not_le_of_lt hml)
          · intro hc
            obtain ⟨hc1, -⟩ := hc
            exact absurd hc1 (not_le_of_lt hmh)
        · -- direction down: merged bar keeps a high and a low below prevK
          have hne : d ≠ 0 := by rw [hd]; decide
          have hd1 : ¬ d = 1 := by rw [hd]; decide
          have hmh : lastK.high ⊓ k.high < prevK.high :=
            lt_of_le_of_lt (min_le_left _ _) h1
          have hml : lastK.low ⊓ k.low < prevK.low :=
            lt_of_le_of_lt (min_le_left _ _) h2
          simp only [inclusionStep, if_pos hcont, if_neg hne, hd]
          refine ⟨Or.inr ⟨rfl, hmh, hml⟩,
            List.chain'_cons.mpr ⟨⟨?_, ?_⟩, hch.tail⟩⟩
          · intro hc
            obtain ⟨hc1, -⟩ := hc
            exact absurd hc1 (not_le_of_lt hmh)
          · intro hc
            obtain ⟨-, hc2⟩ := hc
            exact absurd hc2 (not_le_of_lt hml)
    · -- push branch
      have hnm : noMutualContainment
          { toKline := k, originalStartIndex := i, originalEndIndex := i,
            children := [k] } lastK := by
        obtain ⟨ha, hb⟩ := not_or.mp hcont
        exact ⟨hb, ha⟩
      rcases not_contained_strict k.high k.low lastK.high lastK.low hcont with
        ⟨hu1, hu2⟩ | ⟨hd1, hd2⟩
      · have hc1 : k.high > lastK.high ∧ k.low > lastK.low := ⟨hu1, hu2⟩
        simp only [inclusionStep, if_neg hcont, if_pos hc1]
        exact ⟨Or.inl ⟨rfl, hu1, hu2⟩, List.chain'_cons.mpr ⟨hnm, hch⟩⟩
      · have hc1 : ¬ (k.high > lastK.high ∧ k.low > lastK.low) := by
          rintro ⟨hc, -⟩
          exact absurd hc (not_lt_of_le hd1.le)
        have hc2 : k.high < lastK.high ∧ k.low < lastK.low := ⟨hd1, hd2⟩
        simp only [inclusionStep, if_neg hcont, if_neg hc1, if_pos hc2]
        exact ⟨Or.inr ⟨rfl, hd1, hd2⟩, List.chain'_cons.mpr ⟨hnm, hch⟩⟩

/-- The inclusion loop preserves the chain of adjacent non-containment. -/
lemma inclusionGo_chain (rest : List Kline) : ∀ (acc : List MergedKline)
    (d : Int) (i : Nat), InclInv acc d →
    List.Chain' noMutualContainment acc →
    List.Chain' noMutualContainment (inclusionGo acc d i rest) := by
  induction rest with
  | nil =>
    intro acc d i _ hch
    simp only [inclusionGo]
    exact List.chain'_reverse.mpr (hch.imp fun a b h => ⟨h.2, h.1⟩)
  | cons k rest ih =>
    intro acc d i hinv hch
    simp only [inclusionGo]
    obtain ⟨hinv1, hch1⟩ := inclusionStep_inv acc d i k hinv hch
    exact ih _ _ _ hinv1 hch1

/-- Adjacent output merged klines never contain one another. -/
lemma processInclusionStrict_chain (klines : List Kline) :
    List.Chain' noMutualContainment (processInclusionStrict klines) := by
  match klines with
  | [] => simp [processInclusionStrict]
  | k0 :: rest =>
    exact inclusionGo_chain rest _ 0 1 (Or.inl rfl) (List.chain'_singleton _)

/-- Claim C2: in the merged kline list produced by inclusion processing, no
two adjacent merged klines satisfy the containment predicate in either
direction (they are maximally merged). -/
theorem c2_adjacent_merged_not_contained (klines : List Kline) :
    List.Chain' noMutualContainment (processInclusionStrict klines) :=
  processInclusionStrict_chain klines

/-- Internal span invariant of the inclusion loop: the accumulator (in
reverse order) is nonempty, its head ends exactly one before the current
input index, spans chain contiguously backwards, the oldest span starts at
zero, and every span is well-formed. -/
def SpanInv (acc : List MergedKline) (i : Nat) : Prop :=
  (∃ m rest, acc = m :: rest ∧ m.originalEndIndex + 1 = i) ∧
  List.Chain' (fun a b => a.originalStartIndex = b.originalEndIndex + 1) acc ∧
  (acc.getLast?.map (fun m => m.originalStartIndex)) = some 0 ∧
  (∀ m ∈ acc, m.originalStartIndex ≤ m.originalEndIndex)

/-- The inclusion step advances the span invariant by one input index. -/
lemma inclusionStep_span (acc : List MergedKline) (d : Int) (i : Nat) (k : Kline)
    (hinv : SpanInv acc i) : SpanInv (inclusionStep acc d i k).1 (i + 1) := by
  obtain ⟨⟨m, mrest, hacc, hend⟩, hch, hlast, hwf⟩ := hinv
  subst hacc
  by_cases hcont : rangeIn k.high k.low m.high m.low ∨
      rangeIn m.high m.low k.high k.low
  · -- merge branch: the head's end index advances to i
    have hwfm : m.originalStartIndex ≤ m.originalEndIndex := hwf m (by simp)
    simp only [inclusionStep, if_pos hcont]
    refine ⟨⟨_, mrest, rfl, rfl⟩, ?_, ?_, ?_⟩
    · match mrest with
      | [] => simp
      | p :: r =>
        refine List.chain'_cons.mpr ⟨?_, (List.chain'_cons.mp hch).2⟩
        simpa using (List.chain'_cons.mp hch).1
    · match mrest with
      | [] => simpa using hlast
      | p :: r => simpa using hlast
    · intro x hx
      rcases List.mem_cons.mp hx with hx | hx
      · subst hx
        simp only
        omega
      · exact hwf x (List.mem_cons_of_mem _ hx)
  · -- push branch: a fresh span of length one is opened at index i
    simp only [inclusionStep, if_neg hcont]
    refine ⟨⟨_, m :: mrest, rfl, rfl⟩, ?_, ?_, ?_⟩
    · refine List.chain'_cons.mpr ⟨?_, hch⟩
      simpa using hend.symm
    · simpa using hlast
    · intro x hx
      rcases List.mem_cons.mp hx with hx | hx
      · subst hx
        simp
      · exact hwf x hx

/-- Output form of the span invariant for the finished merged list. -/
lemma inclusionGo_span (rest : List Kline) : ∀ (acc : List MergedKline)
    (d : Int) (i : Nat), SpanInv acc i →
    (List.head? (inclusionGo acc d i rest)).map
      (fun m => m.originalStartIndex) = some 0 ∧
    (List.getLast? (inclusionGo acc d i rest)).map
      (fun m => m.originalEndIndex + 1) = some (i + rest.length) ∧
    List.Chain' (fun a b => b.originalStartIndex = a.originalEndIndex + 1)
      (inclusionGo acc d i rest) ∧
    (∀ m ∈ inclusionGo acc d i rest,
      m.originalStartIndex ≤ m.originalEndIndex) := by
  induction rest with
  | nil =>
    intro acc d i hinv
    obtain ⟨⟨m, mrest, hacc, hend⟩, hch, hlast, hwf⟩ := hinv
    subst hacc
    simp only [inclusionGo]
    refine ⟨?_, ?_, ?_, ?_⟩
    · rw [List.head?_reverse]
      simpa using hlast
    · rw [List.getLast?_reverse]
      simp [hend]
    · exact List.chain'_reverse.mpr (hch.imp fun a b h => h)
    · intro x hx
      exact hwf x (List.mem_reverse.mp hx)
  | cons k rest ih =>
    intro acc d i hinv
    simp only [inclusionGo]
    simpa [Nat.add_comm, Nat.add_assoc, Nat.add_left_comm] using
      ih (inclusionStep acc d i k).1 (inclusionStep acc d i k).2 (i + 1)
        (inclusionStep_span acc d i k hinv)

/-- Claim C10: for a nonempty input, the original index spans recorded on
the output merged klines partition the input index range exactly: the first
span starts at 0, the last ends at the final input index, every span is
well-formed, and each span starts right after the previous span ends. -/
theorem c10_merged_spans_partition (klines : List Kline) (h : klines ≠ []) :
    ((processInclusionStrict klines).head?.map
      (fun m => m.originalStartIndex)) = some 0 ∧
    ((processInclusionStrict klines).getLast?.map
      (fun m => m.originalEndIndex)) = some (klines.length - 1) ∧
    List.Chain' (fun a b => b.originalStartIndex = a.originalEndIndex + 1)
      (processInclusionStrict klines) ∧
    (∀ m ∈ processInclusionStrict klines,
      m.originalStartIndex ≤ m.originalEndIndex) := by
  match klines with
  | [] => exact absurd rfl h
  | k0 :: rest =>
    have hinv : SpanInv [⟨k0, 0, 0, [k0]⟩] 1 :=
      ⟨⟨_, [], rfl, rfl⟩, by simp, by simp, by simp⟩
    obtain ⟨hh, hl, hc, hw⟩ :=
      inclusionGo_span rest [⟨k0, 0, 0, [k0]⟩] 0 1 hinv
    refine ⟨hh, ?_, hc, hw⟩
    obtain ⟨m, hm, hval⟩ := Option.map_eq_some'.mp hl
    simp only [processInclusionStrict]
    rw [hm]
    simp only [Option.map_some', Option.some_inj, List.length_cons]
    omega

/-- Witness for C10 at a concrete two-bar input. -/
theorem c10_merged_spans_partition_witness :
    [mkKline 0 10 5 7, mkKline 1 20 15 17] ≠ ([] : List Kline) ∧
    ((processInclusionStrict [mkKline 0 10 5 7, mkKline 1 20 15 17]).head?.map
      (fun m => m.originalStartIndex)) = some 0 ∧
    ((processInclusionStrict [mkKline 0 10 5 7, mkKline 1 20 15 17]).getLast?.map
      (fun m => m.originalEndIndex)) = some 1 :=
  ⟨by decide,
    (c10_merged_spans_partition [mkKline 0 10 5 7, mkKline 1 20 15 17]
      (by decide)).1,
    (c10_merged_spans_partition [mkKline 0 10 5 7, mkKline 1 20 15 17]
      (by decide)).2.1⟩

/-! ## Claim C7: fractal identification -/

/-- The fractal points the specification describes at interior index i of
the merged list: a top fractal when the high strictly exceeds both
neighbours, and (independently) a bottom fractal when the low is strictly
below both neighbours; the emitted point carries the merged bar's extreme
price, its time, and its original end index. -/
def fractalPointsAtSpec (ml : List MergedKline) (i : Nat) : List ChanPoint :=
  let prev := ml.getD (i - 1) default
  let curr := ml.getD i default
  let next := ml.getD (i + 1) default
  (if curr.high > prev.high ∧ curr.high > next.high then [topPointOf curr]
   else []) ++
  (if curr.low < prev.low ∧ curr.low < next.low then [botPointOf curr]
   else [])

/-- The fractal points the code emits at interior index i (top fractal
takes precedence over bottom in the source else-if). -/
def fractalPointsAtCode (ml : List MergedKline) (i : Nat) : List ChanPoint :=
  let prev := ml.getD (i - 1) default
  let curr := ml.getD i default
  let next := ml.getD (i + 1) default
  if curr.high > prev.high ∧ curr.high > next.high then [topPointOf curr]
  else if curr.low < prev.low ∧ curr.low < next.low then [botPointOf curr]
  else []

/-- The window scan agrees with the positional description of the code. -/
lemma fractalScan_eq_flatMap (ml : List MergedKline) :
    ∀ (rest : List MergedKline) (k : Nat) (a b : MergedKline),
    ml.drop k = a :: b :: rest →
    fractalScan a b rest = (List.range rest.length).flatMap
      (fun j => fractalPointsAtCode ml (k + 1 + j)) := by
  intro rest
  induction rest with
  | nil => intro k a b h; simp [fractalScan]
  | cons c rest ih =>
    intro k a b h
    have hdrop1 : ml.drop (k + 1) = b :: c :: rest := by
      rw [← List.drop_drop 1 k, h]
      simp
    have ha : ml.getD k default = a := by
      have hx : ml[k]? = some a := by
        have := List.getElem?_drop ml k 0
        rw [h] at this
        simpa using this.symm
      simp [List.getD_eq_getElem?_getD, hx]
    have hb : ml.getD (k + 1) default = b := by
      have hx : ml[k + 1]? = some b := by
        have := List.getElem?_drop ml (k + 1) 0
        rw [hdrop1] at this
        simpa using this.symm
      simp [List.getD_eq_getElem?_getD, hx]
    have hc : ml.getD (k + 2) default = c := by
      have hx : ml[k + 2]? = some c := by
        have := List.getElem?_drop ml (k + 1) 1
        rw [hdrop1] at this
        simpa [Nat.add_assoc] using this.symm
      simp [List.getD_eq_getElem?_getD, hx]
    have hcode : fractalPointsAtCode ml (k + 1) =
        (if b.high > a.high ∧ b.high > c.high then [topPointOf b]
         else if b.low < a.low ∧ b.low < c.low then [botPointOf b] else []) := by
      simp only [fractalPointsAtCode]
      rw [show k + 1 - 1 = k from rfl, ha, hb, show k + 1 + 1 = k + 2 from rfl, hc]
    have hstep : fractalScan a b (c :: rest) =
        (if b.high > a.high ∧ b.high > c.high then [topPointOf b]
         else if b.low < a.low ∧ b.low < c.low then [botPointOf b] else []) ++
        fractalScan b c rest := rfl
    simp only [List.length_cons]
    rw [List.range_succ_eq_map]
    simp only [List.flatMap_cons, Nat.add_zero]
    rw [hstep, hcode, ih (k + 1) b c hdrop1, List.flatMap_map]
    refine congrArg _ (congrArg _ (funext fun j => ?_))
    show fractalPointsAtCode ml (k + 1 + 1 + j) =
      fractalPointsAtCode ml (k + 1 + j.succ)
    congr 1
    omega

/-- Congruence of flatMap for functions equal on the list members. -/
lemma listFlatMapCongr {α β : Type} {l : List α} {f g : α → List β}
    (h : ∀ a ∈ l, f a = g a) : l.flatMap f = l.flatMap g := by
  induction l with
  | nil => rfl
  | cons x xs ih =>
    simp only [List.flatMap_cons]
    rw [h x (by simp), ih (fun a ha => h a (List.mem_cons_of_mem _ ha))]

/-- On inclusion-processed input, the top and bottom fractal conditions are
mutually exclusive, so the code's else-if chain agrees with the
specification's pair of independent conditions. -/
lemma fractalPointsAtCode_eq_spec (klines : List Kline) (i : Nat)
    (h1 : 1 ≤ i) (h2 : i + 1 < (processInclusionStrict klines).length) :
    fractalPointsAtCode (processInclusionStrict klines) i =
    fractalPointsAtSpec (processInclusionStrict klines) i := by
  have hchain := processInclusionStrict_chain klines
  have hrel2 : noMutualContainment
      ((processInclusionStrict klines).getD (i - 1) default)
      ((processInclusionStrict klines).getD i default) := by
    have hrel := List.chain'_iff_get.mp hchain (i - 1) (by omega)
    rw [List.getD_eq_getElem _ _ (show i - 1 < _ by omega),
        List.getD_eq_getElem _ _ (show i < _ by omega)]
    simp only [List.get_eq_getElem] at hrel
    convert hrel using 2
    omega
  simp only [fractalPointsAtCode, fractalPointsAtSpec]
  by_cases htop : ((processInclusionStrict klines).getD i default).high >
      ((processInclusionStrict klines).getD (i - 1) default).high ∧
      ((processInclusionStrict klines).getD i default).high >
      ((processInclusionStrict klines).getD (i + 1) default).high
  · have hnbot : ¬ (((processInclusionStrict klines).getD i default).low <
        ((processInclusionStrict klines).getD (i - 1) default).low ∧
        ((processInclusionStrict klines).getD i default).low <
        ((processInclusionStrict klines).getD (i + 1) default).low) := by
      rintro ⟨hb, -⟩
      exact hrel2.2 ⟨htop.1.le, hb.le⟩
    rw [if_pos htop, if_pos htop, if_neg hnbot]
    simp
  · rw [if_neg htop, if_neg htop]
    simp

/-- Concrete input for the C7 counterexample: the second bar (high 10,
time 11) is absorbed into a merged bar by the contained third bar, so the
merged bar's time and end index come from the third bar. -/
def exK7 : List Kline :=
  [mkKline 10 1 0 0, mkKline 11 10 5 6, mkKline 12 9 6 7, mkKline 13 3 2 2]

/-- Counterexample for claim C7 as stated: the engine emits a top fractal
whose price is the merged high 10, but whose time (12) and original index
(2) are those of the last constituent bar, not of the extreme bar (the
unique input bar with high 10 has time 11 and original index 1). -/
theorem c7_counterexample :
    identifyFractals (processInclusionStrict exK7) =
      [⟨2, 10, PointType.top, 12, true⟩] ∧
    (∀ k ∈ exK7, k.high = 10 → k.time = 11) ∧
    (exK7.getD 1 default).high = 10 ∧
    (exK7.getD 2 default).high ≠ 10 ∧
    ((11 : Int) ≠ 12) := by
  decide

/-- Claim C7 amended: for every input, the fractal detector emits, at each
interior merged-bar index, a top fractal exactly when the merged bar's high
strictly exceeds both neighbours' highs and a bottom fractal exactly when
its low is strictly below both neighbours' lows (ties never qualify, and
the two conditions never hold together); the emitted point carries the
merged bar's extreme price together with the merged bar's own time and
original end index, which are those of its last constituent bar. -/
theorem c7_amended_fractal_conditions (klines : List Kline) :
    identifyFractals (processInclusionStrict klines) =
    (List.range ((processInclusionStrict klines).length - 2)).flatMap
      (fun j => fractalPointsAtSpec (processInclusionStrict klines) (j + 1)) := by
  rcases hml : processInclusionStrict klines with - | ⟨a, tl⟩
  · simp [identifyFractals]
  · rcases tl with - | ⟨b, rest⟩
    · simp [identifyFractals]
    · have hscan := fractalScan_eq_flatMap (processInclusionStrict klines)
        rest 0 a b (by rw [hml]; rfl)
      rw [hml] at hscan
      rw [show identifyFractals (a :: b :: rest) = fractalScan a b rest from rfl,
        hscan]
      have hlen : (a :: b :: rest).length - 2 = rest.length := by simp
      rw [hlen]
      refine listFlatMapCongr (fun j hj => ?_)
      have hjlt : j < rest.length := List.mem_range.mp hj
      have hcs := fractalPointsAtCode_eq_spec klines (j + 1)
        (by omega) (by rw [hml]; simp; omega)
      rw [hml] at hcs
      have h01 : 0 + 1 + j = j + 1 := by omega
      rw [h01]
      exact hcs

/-! ## Claim C5: stroke validity thresholds -/

/-- Congruence of filterMap for functions equal on the list members. -/
lemma listFilterMapCongr {α β : Type} {l : List α} {f g : α → Option β}
    (h : ∀ a ∈ l, f a = g a) : l.filterMap f = l.filterMap g := by
  induction l with
  | nil => rfl
  | cons x xs ih =>
    simp only [List.filterMap_cons]
    rw [h x (by simp), ih (fun a ha => h a (List.mem_cons_of_mem _ ha))]

/-- The continuity pass returns its input unchanged: the source loop pushes
the current stroke in both the connected and the gap branch. -/
lemma ensureContinuity_go_eq (rest : List ChanBi) :
    ∀ b, ensureContinuity.go b rest = b :: rest := by
  induction rest with
  | nil => intro b; rfl
  | cons n rest ih =>
    intro b
    show (if b.stop.time = n.start.time then b :: ensureContinuity.go n rest
      else b :: ensureContinuity.go n rest) = b :: n :: rest
    rw [ite_self, ih n]

/-- The continuity pass is the identity. -/
lemma ensureContinuity_eq (l : List ChanBi) : ensureContinuity l = l := by
  match l with
  | [] => rfl
  | b :: rest => exact ensureContinuity_go_eq rest b

/-- The acceptance threshold on the merged-bar index distance, by mode. -/
def biThreshold (s : AppSettings) : Nat :=
  match s.biType with
  | BiType.old => 4
  | BiType.new => 3
  | BiType.fractal => 0
  | BiType.custom => (if s.biKCount = 0 then 5 else s.biKCount) - 1

/-- Claim C5 amended: each adjacent pair of alternation-filtered points is
accepted as a stroke exactly when the absolute difference of the merged-bar
indices found for its two endpoint times meets the mode's threshold (old 4,
new 3, fractal 0, custom configured-count minus one); this index distance
exceeds the count of strictly intervening merged bars by one. -/
theorem c5_amended_validity_thresholds (fractals : List ChanPoint)
    (klines : List MergedKline) (s : AppSettings) :
    generateBi fractals klines s =
    (List.range ((filterAlternation fractals).length - 1)).filterMap (fun i =>
      if biThreshold s ≤
          kCountOf klines ((filterAlternation fractals).getD i default)
            ((filterAlternation fractals).getD (i + 1) default) then
        some (mkBi ((filterAlternation fractals).getD i default)
          ((filterAlternation fractals).getD (i + 1) default))
      else none) := by
  have hpair : ∀ (a b : ChanPoint),
      (if biPairValid klines s a b then some (mkBi a b) else none) =
      (if biThreshold s ≤ kCountOf klines a b then some (mkBi a b) else none) := by
    intro a b
    have hbv : (biPairValid klines s a b = true) ↔
        (biThreshold s ≤ kCountOf klines a b) := by
      unfold biPairValid biThreshold
      cases s.biType <;> simp
    by_cases hc : biThreshold s ≤ kCountOf klines a b
    · rw [if_pos (hbv.mpr hc), if_pos hc]
    · rw [if_neg (fun hh => hc (hbv.mp hh)), if_neg hc]
  have hrhs : (List.range ((filterAlternation fractals).length - 1)).filterMap
      (fun i =>
        if biThreshold s ≤
            kCountOf klines ((filterAlternation fractals).getD i default)
              ((filterAlternation fractals).getD (i + 1) default) then
          some (mkBi ((filterAlternation fractals).getD i default)
            ((filterAlternation fractals).getD (i + 1) default))
        else none) = validBiOf (filterAlternation fractals) klines s := by
    unfold validBiOf
    exact listFilterMapCongr (fun i hi => (hpair _ _).symm)
  rw [hrhs]
  unfold generateBi
  by_cases hf : fractals.length < 2
  · rw [if_pos hf]
    match fractals with
    | [] => rfl
    | [x] => rfl
    | x :: y :: rest =>
      simp only [List.length_cons] at hf
      omega
  · rw [if_neg hf]
    by_cases hr : (filterAlternation fractals).length < 2
    · rw [if_pos hr]
      unfold validBiOf
      have : (filterAlternation fractals).length - 1 = 0 := by omega
      rw [this]
      rfl
    · rw [if_neg hr]
      by_cases hv : (validBiOf (filterAlternation fractals) klines s).length = 0
      · rw [if_pos hv]
        exact (List.length_eq_zero.mp hv).symm
      · rw [if_neg hv]
        exact ensureContinuity_eq _

/-- Six merged bars (times 0..5, one constituent each) used by the C5
counterexample. -/
def exMK5 : List MergedKline :=
  [⟨mkKline 0 2 1 1, 0, 0, [mkKline 0 2 1 1]⟩,
   ⟨mkKline 1 3 2 2, 1, 1, [mkKline 1 3 2 2]⟩,
   ⟨mkKline 2 4 3 3, 2, 2, [mkKline 2 4 3 3]⟩,
   ⟨mkKline 3 5 4 4, 3, 3, [mkKline 3 5 4 4]⟩,
   ⟨mkKline 4 10 9 9, 4, 4, [mkKline 4 10 9 9]⟩,
   ⟨mkKline 5 6 5 5, 5, 5, [mkKline 5 6 5 5]⟩]

/-- A bottom at merged index 0 and a top at merged index 4, used by the C5
counterexample. -/
def exF5 : List ChanPoint :=
  [⟨0, 1, PointType.bottom, 0, true⟩, ⟨4, 10, PointType.top, 4, true⟩]

/-- Counterexample for claim C5 as stated: in old mode the engine accepts
this fractal pair as a stroke although only three merged bars lie strictly
between the merged bars of its endpoints (indices 0 and 4), not the four
the claim requires; the code's threshold of 4 applies to the index
difference, not to the intervening-bar count. -/
theorem c5_counterexample :
    exSettings.biType = BiType.old ∧
    generateBi exF5 exMK5 exSettings =
      [mkBi (exF5.getD 0 default) (exF5.getD 1 default)] ∧
    findMKIdx exMK5 (exF5.getD 0 default).time = 0 ∧
    findMKIdx exMK5 (exF5.getD 1 default).time = 4 ∧
    ((List.range exMK5.length).filter
      (fun m => decide (0 < m ∧ m < 4))).length = 3 ∧
    ¬ (4 ≤ 3) := by
  decide

/-! ## Claim C6: the alternation filter -/

/-- The strictly less extreme of two same-type points: a smaller top or a
higher bottom. -/
def lessExtreme (a b : ChanPoint) : Prop :=
  (a.type = PointType.top ∧ a.price < b.price) ∨
  (a.type = PointType.bottom ∧ b.price < a.price)

/-- Every point in the filter output comes from the buffer or the input. -/
lemma altFilterGo_subset (ps : List ChanPoint) : ∀ (acc : List ChanPoint)
    (x : ChanPoint), x ∈ altFilterGo acc ps → x ∈ acc ∨ x ∈ ps := by
  induction ps with
  | nil =>
    intro acc x hx
    simp only [altFilterGo] at hx
    exact Or.inl (List.mem_reverse.mp hx)
  | cons curr rest ih =>
    intro acc x hx
    match acc with
    | [] =>
      simp only [altFilterGo] at hx
      rcases ih [curr] x hx with h | h
      · simp only [List.mem_singleton] at h
        exact Or.inr (by simp [h])
      · exact Or.inr (List.mem_cons_of_mem _ h)
    | lastPt :: accRest =>
      by_cases h1 : curr.type = lastPt.type
      · by_cases h2 : curr.type = PointType.top ∧ curr.price > lastPt.price
        · simp only [altFilterGo, if_pos h1, if_pos h2] at hx
          rcases ih _ x hx with h | h
          · rcases List.mem_cons.mp h with h | h
            · exact Or.inr (by simp [h])
            · exact Or.inl (List.mem_cons_of_mem _ h)
          · exact Or.inr (List.mem_cons_of_mem _ h)
        · by_cases h3 : curr.type = PointType.bottom ∧ curr.price < lastPt.price
          · simp only [altFilterGo, if_pos h1, if_neg h2, if_pos h3] at hx
            rcases ih _ x hx with h | h
            · rcases List.mem_cons.mp h with h | h
              · exact Or.inr (by simp [h])
              · exact Or.inl (List.mem_cons_of_mem _ h)
            · exact Or.inr (List.mem_cons_of_mem _ h)
          · simp only [altFilterGo, if_pos h1, if_neg h2, if_neg h3] at hx
            rcases ih _ x hx with h | h
            · exact Or.inl h
            · exact Or.inr (List.mem_cons_of_mem _ h)
      · simp only [altFilterGo, if_neg h1] at hx
        rcases ih _ x hx with h | h
        · rcases List.mem_cons.mp h with h | h
          · exact Or.inr (by simp [h])
          · exact Or.inl h
        · exact Or.inr (List.mem_cons_of_mem _ h)

/-- A point outside both the buffer and the input is not in the output. -/
lemma notMem_altFilterGo (acc ps : List ChanPoint) (x : ChanPoint)
    (ha : x ∉ acc) (hp : x ∉ ps) : x ∉ altFilterGo acc ps := by
  intro hx
  rcases altFilterGo_subset ps acc x hx with h | h
  · exact ha h
  · exact hp h

/-- The filter preserves strict type alternation of the buffer. -/
lemma altFilterGo_chain (ps : List ChanPoint) : ∀ (acc : List ChanPoint),
    List.Chain' (fun a b => a.type ≠ b.type) acc →
    List.Chain' (fun a b => a.type ≠ b.type) (altFilterGo acc ps) := by
  induction ps with
  | nil =>
    intro acc hch
    simp only [altFilterGo]
    exact List.chain'_reverse.mpr (hch.imp fun a b h => h.symm)
  | cons curr rest ih =>
    intro acc hch
    match acc with
    | [] => exact ih [curr] (List.chain'_singleton _)
    | lastPt :: accRest =>
      have hrepl : List.Chain' (fun a b => a.type ≠ b.type) (lastPt :: accRest) →
          curr.type = lastPt.type →
          List.Chain' (fun a b => a.type ≠ b.type) (curr :: accRest) := by
        intro hc he
        cases accRest with
        | nil => exact List.chain'_singleton _
        | cons p r =>
          refine List.chain'_cons.mpr ⟨?_, (List.chain'_cons.mp hc).2⟩
          rw [he]
          exact (List.chain'_cons.mp hc).1
      by_cases h1 : curr.type = lastPt.type
      · by_cases h2 : curr.type = PointType.top ∧ curr.price > lastPt.price
        · simp only [altFilterGo, if_pos h1, if_pos h2]
          exact ih _ (hrepl hch h1)
        · by_cases h3 : curr.type = PointType.bottom ∧ curr.price < lastPt.price
          · simp only [altFilterGo, if_pos h1, if_neg h2, if_pos h3]
            exact ih _ (hrepl hch h1)
          · simp only [altFilterGo, if_pos h1, if_neg h2, if_neg h3]
            exact ih _ hch
      · simp only [altFilterGo, if_neg h1]
        exact ih _ (List.chain'_cons.mpr ⟨h1, hch⟩)

/-- Scenario one of the pair analysis: the first point of the pair sits at
the head of the buffer; whichever of the two is strictly less extreme is
absent from the final output. -/
lemma altFilterGo_s1 (curr r0 : ChanPoint) (X rest' : List ChanPoint)
    (hX : ∀ x ∈ X, x.time < curr.time)
    (hcr : curr.time < r0.time)
    (hcRest : ∀ x ∈ rest', curr.time < x.time)
    (hrRest : ∀ x ∈ rest', r0.time < x.time)
    (htype : curr.type = r0.type) :
    (lessExtreme curr r0 → curr ∉ altFilterGo (curr :: X) (r0 :: rest')) ∧
    (lessExtreme r0 curr → r0 ∉ altFilterGo (curr :: X) (r0 :: rest')) := by
  have h1 : r0.type = curr.type := htype.symm
  have hcurrNotIn : curr ∉ rest' := fun hm =>
    absurd (hcRest curr hm) (lt_irrefl _)
  have hr0NotInRest : r0 ∉ rest' := fun hm =>
    absurd (hrRest r0 hm) (lt_irrefl _)
  have hcurrNeR0 : curr ≠ r0 := fun he =>
    absurd (he ▸ hcr) (lt_irrefl _)
  have hcurrNotInX : curr ∉ X := fun hm =>
    absurd (hX curr hm) (lt_irrefl _)
  have hr0NotInCX : r0 ∉ curr :: X := by
    intro hm
    rcases List.mem_cons.mp hm with hm | hm
    · exact absurd (hm ▸ hcr) (lt_irrefl _)
    · exact absurd (hcr.trans (hX r0 hm)) (lt_irrefl _)
  constructor
  · rintro (⟨ht, hp⟩ | ⟨ht, hp⟩)
    · have h2 : r0.type = PointType.top ∧ r0.price > curr.price :=
        ⟨by rw [← htype]; exact ht, hp⟩
      have hstep : altFilterGo (curr :: X) (r0 :: rest') =
          altFilterGo (r0 :: X) rest' := by
        simp only [altFilterGo, if_pos h1, if_pos h2]
      rw [hstep]
      refine notMem_altFilterGo _ _ _ ?_ hcurrNotIn
      intro hm
      rcases List.mem_cons.mp hm with hm | hm
      · exact hcurrNeR0 hm
      · exact hcurrNotInX hm
    · have hrbot : r0.type = PointType.bottom := by rw [← htype]; exact ht
      have hn2 : ¬ (r0.type = PointType.top ∧ r0.price > curr.price) := by
        rintro ⟨hc, -⟩
        rw [hrbot] at hc
        exact PointType.noConfusion hc
      have h3 : r0.type = PointType.bottom ∧ r0.price < curr.price := ⟨hrbot, hp⟩
      have hstep : altFilterGo (curr :: X) (r0 :: rest') =
          altFilterGo (r0 :: X) rest' := by
        simp only [altFilterGo, if_pos h1, if_neg hn2, if_pos h3]
      rw [hstep]
      refine notMem_altFilterGo _ _ _ ?_ hcurrNotIn
      intro hm
      rcases List.mem_cons.mp hm with hm | hm
      · exact hcurrNeR0 hm
      · exact hcurrNotInX hm
  · rintro (⟨ht, hp⟩ | ⟨ht, hp⟩)
    · have hn2 : ¬ (r0.type = PointType.top ∧ r0.price > curr.price) := by
        rintro ⟨-, hc⟩
        exact absurd hc (not_lt_of_le hp.le)
      have hn3 : ¬ (r0.type = PointType.bottom ∧ r0.price < curr.price) := by
        rintro ⟨hc, -⟩
        rw [ht] at hc
        exact PointType.noConfusion hc
      have hstep : altFilterGo (curr :: X) (r0 :: rest') =
          altFilterGo (curr :: X) rest' := by
        simp only [altFilterGo, if_pos h1, if_neg hn2, if_neg hn3]
      rw [hstep]
      exact notMem_altFilterGo _ _ _ hr0NotInCX hr0NotInRest
    · have hn2 : ¬ (r0.type = PointType.top ∧ r0.price > curr.price) := by
        rintro ⟨hc, -⟩
        rw [ht] at hc
        exact PointType.noConfusion hc
      have hn3 : ¬ (r0.type = PointType.bottom ∧ r0.price < curr.price) := by
        rintro ⟨-, hc⟩
        exact absurd hc (not_lt_of_le hp.le)
      have hstep : altFilterGo (curr :: X) (r0 :: rest') =
          altFilterGo (curr :: X) rest' := by
        simp only [altFilterGo, if_pos h1, if_neg hn2, if_neg hn3]
      rw [hstep]
      exact notMem_altFilterGo _ _ _ hr0NotInCX hr0NotInRest

/-- Scenario two of the pair analysis: the first point of the pair was
discarded against the buffer head; the head's price dominates it, so a
strictly less extreme second point is discarded as well. -/
lemma altFilterGo_s2 (lastPt curr r0 : ChanPoint) (accRest rest' : List ChanPoint)
    (hsame : curr.type = lastPt.type)
    (habsT : curr.type = PointType.top → curr.price ≤ lastPt.price)
    (habsB : curr.type = PointType.bottom → lastPt.price ≤ curr.price)
    (hacc : ∀ x ∈ lastPt :: accRest, x.time < curr.time)
    (hcr : curr.time < r0.time)
    (hcRest : ∀ x ∈ rest', curr.time < x.time)
    (hrRest : ∀ x ∈ rest', r0.time < x.time)
    (htype : curr.type = r0.type) :
    (curr ∉ altFilterGo (lastPt :: accRest) (r0 :: rest')) ∧
    (lessExtreme r0 curr → r0 ∉ altFilterGo (lastPt :: accRest) (r0 :: rest')) := by
  have h1 : r0.type = lastPt.type := htype.symm.trans hsame
  have hcurrNotInAcc : curr ∉ lastPt :: accRest := fun hm =>
    absurd (hacc curr hm) (lt_irrefl _)
  have hcurrNotInPs : curr ∉ r0 :: rest' := by
    intro hm
    rcases List.mem_cons.mp hm with hm | hm
    · exact absurd (hm ▸ hcr) (lt_irrefl _)
    · exact absurd (hcRest curr hm) (lt_irrefl _)
  have hr0NotInAcc : r0 ∉ lastPt :: accRest := fun hm =>
    absurd ((hacc r0 hm).trans hcr) (lt_irrefl _)
  have hr0NotInRest : r0 ∉ rest' := fun hm =>
    absurd (hrRest r0 hm) (lt_irrefl _)
  refine ⟨notMem_altFilterGo _ _ _ hcurrNotInAcc hcurrNotInPs, ?_⟩
  rintro (⟨ht, hp⟩ | ⟨ht, hp⟩)
  · have hctop : curr.type = PointType.top := by rw [htype]; exact ht
    have hlt : r0.price < lastPt.price := hp.trans_le (habsT hctop)
    have hn2 : ¬ (r0.type = PointType.top ∧ r0.price > lastPt.price) := by
      rintro ⟨-, hc⟩
      exact absurd hc (not_lt_of_lt hlt)
    have hn3 : ¬ (r0.type = PointType.bottom ∧ r0.price < lastPt.price) := by
      rintro ⟨hc, -⟩
      rw [ht] at hc
      exact PointType.noConfusion hc
    have hstep : altFilterGo (lastPt :: accRest) (r0 :: rest') =
        altFilterGo (lastPt :: accRest) rest' := by
      simp only [altFilterGo, if_pos h1, if_neg hn2, if_neg hn3]
    rw [hstep]
    exact notMem_altFilterGo _ _ _ hr0NotInAcc hr0NotInRest
  · have hcbot : curr.type = PointType.bottom := by rw [htype]; exact ht
    have hgt : lastPt.price < r0.price := (habsB hcbot).trans_lt hp
    have hn2 : ¬ (r0.type = PointType.top ∧ r0.price > lastPt.price) := by
      rintro ⟨hc, -⟩
      rw [ht] at hc
      exact PointType.noConfusion hc
    have hn3 : ¬ (r0.type = PointType.bottom ∧ r0.price < lastPt.price) := by
      rintro ⟨-, hc⟩
      exact absurd hc (not_lt_of_lt hgt)
    have hstep : altFilterGo (lastPt :: accRest) (r0 :: rest') =
        altFilterGo (lastPt :: accRest) rest' := by
      simp only [altFilterGo, if_pos h1, if_neg hn2, if_neg hn3]
    rw [hstep]
    exact notMem_altFilterGo _ _ _ hr0NotInAcc hr0NotInRest

/-- Main discard lemma: under strictly increasing timestamps, for any
consecutive same-type pair of input points, the strictly less extreme
member of the pair never reaches the filter output, whatever buffer the
scan currently holds. -/
lemma altFilterGo_discard (ps : List ChanPoint) : ∀ (acc : List ChanPoint),
    List.Pairwise (fun a b => a.time < b.time) (acc.reverse ++ ps) →
    ∀ i, i + 1 < ps.length →
    (ps.getD i default).type = (ps.getD (i + 1) default).type →
    (lessExtreme (ps.getD i default) (ps.getD (i + 1) default) →
      ps.getD i default ∉ altFilterGo acc ps) ∧
    (lessExtreme (ps.getD (i + 1) default) (ps.getD i default) →
      ps.getD (i + 1) default ∉ altFilterGo acc ps) := by
  induction ps with
  | nil =>
    intro acc hpw i hi
    simp at hi
  | cons curr rest ih =>
    intro acc hpw i hi htype
    cases i with
    | zero =>
      cases rest with
      | nil => simp at hi
      | cons r0 rest' =>
        simp only [List.getD_cons_zero, List.getD_cons_succ] at htype ⊢
        obtain ⟨hpw1, hpw2, hcross⟩ := List.pairwise_append.mp hpw
        have haccAll : ∀ x ∈ acc, x.time < curr.time := fun x hx =>
          hcross x (List.mem_reverse.mpr hx) curr (List.mem_cons_self _ _)
        obtain ⟨hcurrRest, hpwRest⟩ := List.pairwise_cons.mp hpw2
        have hcr : curr.time < r0.time := hcurrRest r0 (List.mem_cons_self _ _)
        have hcRest' : ∀ x ∈ rest', curr.time < x.time := fun x hx =>
          hcurrRest x (List.mem_cons_of_mem _ hx)
        have hrRest' : ∀ x ∈ rest', r0.time < x.time :=
          (List.pairwise_cons.mp hpwRest).1
        cases acc with
        | nil =>
          have hstep : altFilterGo [] (curr :: r0 :: rest') =
              altFilterGo [curr] (r0 :: rest') := rfl
          rw [hstep]
          exact altFilterGo_s1 curr r0 [] rest'
            (fun x hx => absurd hx (List.not_mem_nil x))
            hcr hcRest' hrRest' htype
        | cons lastPt accRest =>
          by_cases h1 : curr.type = lastPt.type
          · by_cases h2 : curr.type = PointType.top ∧ curr.price > lastPt.price
            · have hstep : altFilterGo (lastPt :: accRest) (curr :: r0 :: rest') =
                  altFilterGo (curr :: accRest) (r0 :: rest') := by
                simp only [altFilterGo, if_pos h1, if_pos h2]
              rw [hstep]
              exact altFilterGo_s1 curr r0 accRest rest'
                (fun x hx => haccAll x (List.mem_cons_of_mem _ hx))
                hcr hcRest' hrRest' htype
            · by_cases h3 : curr.type = PointType.bottom ∧
                  curr.price < lastPt.price
              · have hstep : altFilterGo (lastPt :: accRest)
                    (curr :: r0 :: rest') =
                    altFilterGo (curr :: accRest) (r0 :: rest') := by
                  simp only [altFilterGo, if_pos h1, if_neg h2, if_pos h3]
                rw [hstep]
                exact altFilterGo_s1 curr r0 accRest rest'
                  (fun x hx => haccAll x (List.mem_cons_of_mem _ hx))
                  hcr hcRest' hrRest' htype
              · have hstep : altFilterGo (lastPt :: accRest)
                    (curr :: r0 :: rest') =
                    altFilterGo (lastPt :: accRest) (r0 :: rest') := by
                  simp only [altFilterGo, if_pos h1, if_neg h2, if_neg h3]
                rw [hstep]
                have habsT : curr.type = PointType.top →
                    curr.price ≤ lastPt.price := by
                  intro hct
                  by_contra hcp
                  exact h2 ⟨hct, lt_of_not_le hcp⟩
                have habsB : curr.type = PointType.bottom →
                    lastPt.price ≤ curr.price := by
                  intro hct
                  by_contra hcp
                  exact h3 ⟨hct, lt_of_not_le hcp⟩
                obtain ⟨hA, hB⟩ := altFilterGo_s2 lastPt curr r0 accRest rest'
                  h1 habsT habsB haccAll hcr hcRest' hrRest' htype
                exact ⟨fun _ => hA, hB⟩
          · have hstep : altFilterGo (lastPt :: accRest) (curr :: r0 :: rest') =
                altFilterGo (curr :: lastPt :: accRest) (r0 :: rest') := by
              simp only [altFilterGo, if_neg h1]
            rw [hstep]
            exact altFilterGo_s1 curr r0 (lastPt :: accRest) rest'
              haccAll hcr hcRest' hrRest' htype
    | succ j =>
      simp only [List.getD_cons_succ] at htype ⊢
      have hj : j + 1 < rest.length := by
        simp only [List.length_cons] at hi
        omega
      cases acc with
      | nil =>
        have hstep : altFilterGo [] (curr :: rest) =
            altFilterGo [curr] rest := rfl
        rw [hstep]
        exact ih [curr] (by simpa using hpw) j hj htype
      | cons lastPt accRest =>
        by_cases h1 : curr.type = lastPt.type
        · by_cases h2 : curr.type = PointType.top ∧ curr.price > lastPt.price
          · have hstep : altFilterGo (lastPt :: accRest) (curr :: rest) =
                altFilterGo (curr :: accRest) rest := by
              simp only [altFilterGo, if_pos h1, if_pos h2]
            rw [hstep]
            refine ih (curr :: accRest) ?_ j hj htype
            refine List.Pairwise.sublist ?_ hpw
            simp only [List.reverse_cons, List.append_assoc,
              List.singleton_append]
            exact List.Sublist.append_left (List.sublist_cons_self _ _) _
          · by_cases h3 : curr.type = PointType.bottom ∧
                curr.price < lastPt.price
            · have hstep : altFilterGo (lastPt :: accRest) (curr :: rest) =
                  altFilterGo (curr :: accRest) rest := by
                simp only [altFilterGo, if_pos h1, if_neg h2, if_pos h3]
              rw [hstep]
              refine ih (curr :: accRest) ?_ j hj htype
              refine List.Pairwise.sublist ?_ hpw
              simp only [List.reverse_cons, List.append_assoc,
                List.singleton_append]
              exact List.Sublist.append_left (List.sublist_cons_self _ _) _
            · have hstep : altFilterGo (lastPt :: accRest) (curr :: rest) =
                  altFilterGo (lastPt :: accRest) rest := by
                simp only [altFilterGo, if_pos h1, if_neg h2, if_neg h3]
              rw [hstep]
              refine ih (lastPt :: accRest) ?_ j hj htype
              refine List.Pairwise.sublist ?_ hpw
              exact List.Sublist.append_left (List.sublist_cons_self _ _) _
        · have hstep : altFilterGo (lastPt :: accRest) (curr :: rest) =
              altFilterGo (curr :: lastPt :: accRest) rest := by
            simp only [altFilterGo, if_neg h1]
          rw [hstep]
          refine ih (curr :: lastPt :: accRest) ?_ j hj htype
          have heq : (curr :: lastPt :: accRest).reverse ++ rest =
              (lastPt :: accRest).reverse ++ curr :: rest := by
            simp
          rw [heq]
          exact hpw

/-- Claim C6: the alternation filter outputs a strictly alternating point
list, and whenever two consecutive input points share a type (under
strictly increasing timestamps, as fractal points always have), the
strictly less extreme of the two is discarded from the output. -/
theorem c6_alternation_filter (ps : List ChanPoint)
    (hsorted : List.Pairwise (fun a b => a.time < b.time) ps) :
    List.Chain' (fun a b => a.type ≠ b.type) (filterAlternation ps) ∧
    (∀ i, i + 1 < ps.length →
      (ps.getD i default).type = (ps.getD (i + 1) default).type →
      (lessExtreme (ps.getD i default) (ps.getD (i + 1) default) →
        ps.getD i default ∉ filterAlternation ps) ∧
      (lessExtreme (ps.getD (i + 1) default) (ps.getD i default) →
        ps.getD (i + 1) default ∉ filterAlternation ps)) := by
  constructor
  · match ps with
    | [] => simp [filterAlternation]
    | f0 :: rest => exact altFilterGo_chain rest [f0] (List.chain'_singleton _)
  · intro i hi htype
    cases ps with
    | nil => simp at hi
    | cons f0 rest =>
      cases i with
      | zero =>
        cases rest with
        | nil => simp at hi
        | cons r0 rest' =>
          simp only [List.getD_cons_zero, List.getD_cons_succ] at htype ⊢
          obtain ⟨hf0, hpwRest⟩ := List.pairwise_cons.mp hsorted
          have hcr : f0.time < r0.time := hf0 r0 (List.mem_cons_self _ _)
          have hcRest' : ∀ x ∈ rest', f0.time < x.time := fun x hx =>
            hf0 x (List.mem_cons_of_mem _ hx)
          have hrRest' : ∀ x ∈ rest', r0.time < x.time :=
            (List.pairwise_cons.mp hpwRest).1
          exact altFilterGo_s1 f0 r0 [] rest'
            (fun x hx => absurd hx (List.not_mem_nil x))
            hcr hcRest' hrRest' htype
      | succ j =>
        simp only [List.getD_cons_succ] at htype ⊢
        have hj : j + 1 < rest.length := by
          simp only [List.length_cons] at hi
          omega
        exact altFilterGo_discard rest [f0] (by simpa using hsorted) j hj htype

/-- Three concrete fractal points with a same-type adjacent pair, used by
the C6 witness. -/
def exPts6 : List ChanPoint :=
  [⟨0, 5, PointType.top, 0, true⟩, ⟨1, 3, PointType.top, 1, true⟩,
   ⟨2, 0, PointType.bottom, 2, true⟩]

/-- Witness for C6 at a concrete input: the smaller of two adjacent tops is
discarded and the output strictly alternates. -/
theorem c6_alternation_filter_witness :
    List.Pairwise (fun a b => a.time < b.time) exPts6 ∧
    (exPts6.getD 0 default).type = (exPts6.getD 1 default).type ∧
    lessExtreme (exPts6.getD 1 default) (exPts6.getD 0 default) ∧
    exPts6.getD 1 default ∉ filterAlternation exPts6 := by
  refine ⟨by decide, by decide, ?_, ?_⟩
  · exact Or.inl ⟨by decide, by norm_num [exPts6]⟩
  · exact ((c6_alternation_filter exPts6 (by decide)).2 0 (by decide)
      (by decide)).2 (Or.inl ⟨by decide, by norm_num [exPts6]⟩)

/-! ## Claim C4: pivot validity -/

/-- The pivot extension loop never touches zg or zd, and only raises gg and
lowers dd. -/
lemma pivotExtendGo_bounds (biList : List ChanBi) (zg zd : Rat) :
    ∀ (fuel j endIdx : Nat) (gg dd : Rat), zg ≤ gg → dd ≤ zd →
    zg ≤ (pivotExtendGo biList zg zd fuel j endIdx gg dd).2.1 ∧
    (pivotExtendGo biList zg zd fuel j endIdx gg dd).2.2 ≤ zd := by
  intro fuel
  induction fuel with
  | zero => intro j endIdx gg dd hg hd; exact ⟨hg, hd⟩
  | succ fuel ih =>
    intro j endIdx gg dd hg hd
    simp only [pivotExtendGo]
    by_cases hj : j < biList.length
    · rw [if_pos hj]
      by_cases hov : min (biHigh (biList.getD j default)) zg >
          max (biLow (biList.getD j default)) zd
      · rw [if_pos hov]
        exact ih (j + 1) j (max gg (biHigh (biList.getD j default)))
          (min dd (biLow (biList.getD j default)))
          (hg.trans (le_max_left _ _)) ((min_le_left _ _).trans hd)
      · rw [if_neg hov]
        exact ⟨hg, hd⟩
    · rw [if_neg hj]
      exact ⟨hg, hd⟩

/-- Validity of one pivot record. -/
def pivotOk (p : ChanPivot) : Prop :=
  p.zg > p.zd ∧ p.gg ≥ p.zg ∧ p.dd ≤ p.zd

/-- Every pivot emitted by the scan loop is valid, provided the already
accumulated ones are. -/
lemma pivotGo_ok (biList : List ChanBi) : ∀ (fuel i : Nat)
    (pivots : List ChanPivot), (∀ p ∈ pivots, pivotOk p) →
    ∀ p ∈ pivotGo biList fuel i pivots, pivotOk p := by
  intro fuel
  induction fuel with
  | zero => intro i pivots hok; exact hok
  | succ fuel ih =>
    intro i pivots hok p hp
    simp only [pivotGo] at hp
    by_cases hlen : i + 3 ≤ biList.length
    · rw [if_pos hlen] at hp
      by_cases htype : (biList.getD i default).type =
          (biList.getD (i + 1) default).type
      · rw [if_pos htype] at hp
        exact ih (i + 1) pivots hok p hp
      · rw [if_neg htype] at hp
        by_cases hzg : min (biHigh (biList.getD i default))
            (min (biHigh (biList.getD (i + 1) default))
              (biHigh (biList.getD (i + 2) default))) >
            max (biLow (biList.getD i default))
            (max (biLow (biList.getD (i + 1) default))
              (biLow (biList.getD (i + 2) default))) 
        · rw [if_pos hzg] at hp
          set zg := min (biHigh (biList.getD i default))
            (min (biHigh (biList.getD (i + 1) default))
              (biHigh (biList.getD (i + 2) default))) with hzgdef
          set zd := max (biLow (biList.getD i default))
            (max (biLow (biList.getD (i + 1) default))
              (biLow (biList.getD (i + 2) default))) with hzddef
          have hgg0 : zg ≤ max (biHigh (biList.getD i default))
              (max (biHigh (biList.getD (i + 1) default))
                (biHigh (biList.getD (i + 2) default))) :=
            (min_le_left _ _).trans (le_max_left _ _)
          have hdd0 : min (biLow (biList.getD i default))
              (min (biLow (biList.getD (i + 1) default))
                (biLow (biList.getD (i + 2) default))) ≤ zd :=
            (min_le_left _ _).trans (le_max_left _ _)
          have hext := pivotExtendGo_bounds biList zg zd biList.length (i + 3)
            (i + 2) _ _ hgg0 hdd0
          have hok1 : ∀ q ∈ pivots ++
              [({ startBiIndex := i,
                  endBiIndex := (pivotExtendGo biList zg zd biList.length
                    (i + 3) (i + 2)
                    (max (biHigh (biList.getD i default))
                      (max (biHigh (biList.getD (i + 1) default))
                        (biHigh (biList.getD (i + 2) default))))
                    (min (biLow (biList.getD i default))
                      (min (biLow (biList.getD (i + 1) default))
                        (biLow (biList.getD (i + 2) default))))).1,
                  zg := zg, zd := zd,
                  gg := (pivotExtendGo biList zg zd biList.length
                    (i + 3) (i + 2)
                    (max (biHigh (biList.getD i default))
                      (max (biHigh (biList.getD (i + 1) default))
                        (biHigh (biList.getD (i + 2) default))))
                    (min (biLow (biList.getD i default))
                      (min (biLow (biList.getD (i + 1) default))
                        (biLow (biList.getD (i + 2) default))))).2.1,
                  dd := (pivotExtendGo biList zg zd biList.length
                    (i + 3) (i + 2)
                    (max (biHigh (biList.getD i default))
                      (max (biHigh (biList.getD (i + 1) default))
                        (biHigh (biList.getD (i + 2) default))))
                    (min (biLow (biList.getD i default))
                      (min (biLow (biList.getD (i + 1) default))
                        (biLow (biList.getD (i + 2) default))))).2.2,
                  direction := PivotDir.neutral,
                  startTime := (biList.getD i default).start.time,
                  endTime := (biList.getD (pivotExtendGo biList zg zd
                    biList.length (i + 3) (i + 2)
                    (max (biHigh (biList.getD i default))
                      (max (biHigh (biList.getD (i + 1) default))
                        (biHigh (biList.getD (i + 2) default))))
                    (min (biLow (biList.getD i default))
                      (min (biLow (biList.getD (i + 1) default))
                        (biLow (biList.getD (i + 2) default))))).1
                    default).stop.time,
                  level := PivotLevel.bi } : ChanPivot)], pivotOk q := by
            intro q hq
            rcases List.mem_append.mp hq with hq | hq
            · exact hok q hq
            · rcases List.mem_singleton.mp hq with rfl
              exact ⟨hzg, hext.1, hext.2⟩
          rcases hlast : pivots.getLast? with - | lastP <;> rw [hlast] at hp
          · exact ih _ _ hok1 p hp
          · dsimp only at hp
            by_cases hpush : lastP.endBiIndex < i
            · rw [if_pos hpush] at hp
              exact ih _ _ hok1 p hp
            · rw [if_neg hpush] at hp
              exact ih _ _ hok p hp
        · rw [if_neg hzg] at hp
          exact ih _ _ hok p hp
    · rw [if_neg hlen] at hp
      exact hok p hp

/-- Claim C4: every pivot emitted at either granularity satisfies
zg greater than zd, gg at least zg, and dd at most zd, including after
extension. -/
theorem c4_pivot_validity :
    (∀ (biList : List ChanBi) (p : ChanPivot), p ∈ generatePivotsFromBi biList →
      p.zg > p.zd ∧ p.gg ≥ p.zg ∧ p.dd ≤ p.zd) ∧
    (∀ (segList : List ChanSeg) (p : ChanPivot),
      p ∈ generatePivotsFromSeg segList →
      p.zg > p.zd ∧ p.gg ≥ p.zg ∧ p.dd ≤ p.zd) := by
  have hbi : ∀ (biList : List ChanBi) (p : ChanPivot),
      p ∈ generatePivotsFromBi biList → pivotOk p := by
    intro biList p hp
    unfold generatePivotsFromBi at hp
    by_cases h3 : biList.length < 3
    · rw [if_pos h3] at hp
      simp at hp
    · rw [if_neg h3] at hp
      exact pivotGo_ok biList _ 0 [] (by simp) p hp
  refine ⟨hbi, ?_⟩
  intro segList p hp
  unfold generatePivotsFromSeg at hp
  rcases List.mem_map.mp hp with ⟨q, hq, rfl⟩
  exact ⟨(hbi _ q hq).1, (hbi _ q hq).2.1, (hbi _ q hq).2.2⟩

/-- Three overlapping concrete strokes used by the C4 witness. -/
def exBi4 : List ChanBi :=
  [mkBi ⟨0, 0, PointType.bottom, 0, true⟩ ⟨1, 10, PointType.top, 1, true⟩,
   mkBi ⟨1, 10, PointType.top, 1, true⟩ ⟨2, 2, PointType.bottom, 2, true⟩,
   mkBi ⟨2, 2, PointType.bottom, 2, true⟩ ⟨3, 8, PointType.top, 3, true⟩]

/-- Three overlapping concrete segments used by the C4 witness. -/
def exSeg4 : List ChanSeg :=
  [⟨⟨0, 0, PointType.bottom, 0, true⟩, ⟨1, 10, PointType.top, 1, true⟩,
    BiDir.up, []⟩,
   ⟨⟨1, 10, PointType.top, 1, true⟩, ⟨2, 2, PointType.bottom, 2, true⟩,
    BiDir.down, []⟩,
   ⟨⟨2, 2, PointType.bottom, 2, true⟩, ⟨3, 8, PointType.top, 3, true⟩,
    BiDir.up, []⟩]

/-- Witness for C4: both granularities emit a pivot on this zig-zag, and
the theorem instances confirm its validity. -/
theorem c4_pivot_validity_witness :
    ((generatePivotsFromBi exBi4).getD 0 default ∈ generatePivotsFromBi exBi4 ∧
      ((generatePivotsFromBi exBi4).getD 0 default).zg >
        ((generatePivotsFromBi exBi4).getD 0 default).zd) ∧
    ((generatePivotsFromSeg exSeg4).getD 0 default ∈
        generatePivotsFromSeg exSeg4 ∧
      ((generatePivotsFromSeg exSeg4).getD 0 default).dd ≤
        ((generatePivotsFromSeg exSeg4).getD 0 default).zd) :=
  ⟨⟨by decide,
    (c4_pivot_validity.1 exBi4 ((generatePivotsFromBi exBi4).getD 0 default)
      (by decide)).1⟩,
   ⟨by decide,
    (c4_pivot_validity.2 exSeg4 ((generatePivotsFromSeg exSeg4).getD 0 default)
      (by decide)).2.2⟩⟩

/-! ## Claim C3: segment destruction test -/

/-- The directional merge rule of the bar-merge stage on plain ranges: the
up rule keeps the higher side (max, max), the down rule the lower side
(min, min). -/
def mergeRange (h1 l1 h2 l2 : Rat) (up : Bool) : Rat × Rat :=
  if up then (max h1 h2, max l1 l2) else (min h1 h2, min l1 l2)

/-- Written from the specification: the segment stage confirms termination
at candidate stroke i of a segment of direction t exactly when the
candidate has the segment's own direction, feature elements 1 and 2 (the
strokes at offsets +1 and +3) exist, and
(a) the feature pair, merged with the opposite-direction rule of the
bar-merge stage when one range contains the other (promoting the comparison
to feature element 3, at offset +5), moves opposite the segment direction,
with strictly lower high and low for an up segment and strictly higher high
and low for a down segment, and
(b) the intervening rebound or retrace stroke between the two compared
feature elements closes back through the candidate's endpoint price. -/
def SegDestructionSpec (biList : List ChanBi) (t : BiDir) (i : Nat) : Prop :=
  (biList.getD i default).type = t ∧
  i + 3 < biList.length ∧
  (let f1 := biList.getD (i + 1) default
   let f2 := biList.getD (i + 3) default
   let peak := (biList.getD i default).stop.price
   if (biHigh f2 ≤ biHigh f1 ∧ biLow f2 ≥ biLow f1) ∨
      (biHigh f1 ≤ biHigh f2 ∧ biLow f1 ≥ biLow f2) then
     i + 5 < biList.length ∧
     (let merged := mergeRange (biHigh f1) (biLow f1) (biHigh f2) (biLow f2)
        (t = BiDir.down)
      let f3 := biList.getD (i + 5) default
      let rebound := biList.getD (i + 4) default
      if t = BiDir.up then
        biHigh f3 < merged.1 ∧ biLow f3 < merged.2 ∧ rebound.stop.price < peak
      else
        biHigh f3 > merged.1 ∧ biLow f3 > merged.2 ∧ rebound.stop.price > peak)
   else
     (let rebound := biList.getD (i + 2) default
      if t = BiDir.up then
        biHigh f2 < biHigh f1 ∧ biLow f2 < biLow f1 ∧ rebound.stop.price < peak
      else
        biHigh f2 > biHigh f1 ∧ biLow f2 > biLow f1 ∧ rebound.stop.price > peak))

/-- Claim C3: the engine's per-candidate destruction test coincides with
the specification's feature-inclusion and destruction description. -/
theorem c3_destruction_iff (biList : List ChanBi) (t : BiDir) (i : Nat) :
    destructionAt biList t i = true ↔ SegDestructionSpec biList t i := by
  simp only [destructionAt, SegDestructionSpec, mergeRange]
  by_cases hty : (biList.getD i default).type = t
  · rw [if_neg (show ¬ ((biList.getD i default).type ≠ t) from fun hc => hc hty)]
    by_cases hlen3 : biList.length ≤ i + 3
    · rw [if_pos hlen3]
      simp only [Bool.false_eq_true, false_iff]
      rintro ⟨-, hl, -⟩
      omega
    · rw [if_neg hlen3]
      have hlt3 : i + 3 < biList.length := by omega
      by_cases hincl : (biHigh (biList.getD (i + 3) default) ≤
            biHigh (biList.getD (i + 1) default) ∧
          biLow (biList.getD (i + 3) default) ≥
            biLow (biList.getD (i + 1) default)) ∨
          (biHigh (biList.getD (i + 1) default) ≤
            biHigh (biList.getD (i + 3) default) ∧
          biLow (biList.getD (i + 1) default) ≥
            biLow (biList.getD (i + 3) default))
      · by_cases hlen5 : biList.length ≤ i + 5
        · rw [if_pos ⟨hincl, hlen5⟩, if_pos hincl]
          simp only [Bool.false_eq_true, false_iff]
          rintro ⟨-, -, hl5, -⟩
          omega
        · rw [if_neg (show ¬ (_ ∧ biList.length ≤ i + 5) from
              fun hc => hlen5 hc.2), if_pos hincl, if_pos hincl, if_pos hincl,
            if_pos hincl, if_pos hincl, if_pos hincl]
          have hlt5 : i + 5 < biList.length := by omega
          cases t with
          | up =>
            rw [if_pos rfl, if_pos rfl, if_pos rfl, if_pos rfl]
            rw [show (decide (BiDir.up = BiDir.down)) = false from rfl]
            simp only [Bool.false_eq_true, if_false]
            simp only [decide_eq_true_eq, hty, hlt3, hlt5,
              eq_self_iff_true, true_and]
          | down =>
            rw [if_neg (show ¬ (BiDir.down = BiDir.up) from by decide),
              if_neg (show ¬ (BiDir.down = BiDir.up) from by decide),
              if_neg (show ¬ (BiDir.down = BiDir.up) from by decide),
              if_neg (show ¬ (BiDir.down = BiDir.up) from by decide)]
            rw [show (decide (BiDir.down = BiDir.down)) = true from rfl]
            simp only [if_true]
            simp only [decide_eq_true_eq, hty, hlt3, hlt5,
              eq_self_iff_true, true_and]
      · rw [if_neg (show ¬ (_ ∧ biList.length ≤ i + 5) from
            fun hc => hincl hc.1), if_neg hincl, if_neg hincl, if_neg hincl,
          if_neg hincl, if_neg hincl, if_neg hincl]
        cases t with
        | up =>
          rw [if_pos rfl, if_pos rfl]
          simp only [decide_eq_true_eq, hty, hlt3, eq_self_iff_true, true_and]
        | down =>
          rw [if_neg (show ¬ (BiDir.down = BiDir.up) from by decide),
            if_neg (show ¬ (BiDir.down = BiDir.up) from by decide)]
          simp only [decide_eq_true_eq, hty, hlt3, eq_self_iff_true, true_and]
  · rw [if_pos hty]
    simp only [Bool.false_eq_true, false_iff]
    rintro ⟨hc, -⟩
    exact hty hc

/-! ## Claim C8: first-type divergence signals -/

/-- The 1B signal record emitted at stroke index i. -/
def bp1B (biList : List ChanBi) (i : Nat) : BuySellPoint :=
  { type := BSType.b1, price := (biList.getD i default).stop.price,
    time := (biList.getD i default).stop.time,
    desc := "一买 (盘背)", isSegmentLevel := false }

/-- The 1S signal record emitted at stroke index i. -/
def bp1S (biList : List ChanBi) (i : Nat) : BuySellPoint :=
  { type := BSType.s1, price := (biList.getD i default).stop.price,
    time := (biList.getD i default).stop.time,
    desc := "一卖 (盘背)", isSegmentLevel := false }

/-- The segment-level 1B signal record emitted at segment index i. -/
def sp1B (segList : List ChanSeg) (i : Nat) : BuySellPoint :=
  { type := BSType.b1, price := (segList.getD i default).stop.price,
    time := (segList.getD i default).stop.time,
    desc := "🔥线段底背驰", isSegmentLevel := true }

/-- The segment-level 1S signal record emitted at segment index i. -/
def sp1S (segList : List ChanSeg) (i : Nat) : BuySellPoint :=
  { type := BSType.s1, price := (segList.getD i default).stop.price,
    time := (segList.getD i default).stop.time,
    desc := "🔥线段顶背驰", isSegmentLevel := true }

/-- Membership characterization of the shared divergence emission pattern:
the buy-side record appears exactly when the down-direction, new-low and
force conditions all hold. -/
lemma divPattern_memB (tcur : BiDir) (pc pp fc fp θ : Rat)
    (sB sS : BuySellPoint) (hne : sB ≠ sS) :
    (sB ∈ (if tcur = BiDir.down ∧ pc < pp then
             (if fc < fp * θ then [sB] else [])
           else if tcur = BiDir.up ∧ pc > pp then
             (if fc < fp * θ then [sS] else [])
           else []) ↔ (tcur = BiDir.down ∧ pc < pp ∧ fc < fp * θ)) := by
  by_cases hd : tcur = BiDir.down ∧ pc < pp
  · by_cases hf : fc < fp * θ
    · simp [hd, hf, hd.1, hd.2]
    · simp only [if_pos hd, if_neg hf]
      simp only [List.not_mem_nil, false_iff]
      rintro ⟨-, -, hc⟩
      exact hf hc
  · by_cases hu : tcur = BiDir.up ∧ pc > pp
    · simp only [if_neg hd, if_pos hu]
      constructor
      · intro hm
        exfalso
        by_cases hf : fc < fp * θ
        · rw [if_pos hf] at hm
          exact hne (List.mem_singleton.mp hm)
        · rw [if_neg hf] at hm
          exact List.not_mem_nil _ hm
      · rintro ⟨hc, hp, -⟩
        exact absurd ⟨hc, hp⟩ hd
    · simp only [if_neg hd, if_neg hu, List.not_mem_nil, false_iff]
      rintro ⟨hc, hp, -⟩
      exact absurd ⟨hc, hp⟩ hd

/-- Membership characterization of the sell-side record of the shared
divergence emission pattern. -/
lemma divPattern_memS (tcur : BiDir) (pc pp fc fp θ : Rat)
    (sB sS : BuySellPoint) (hne : sB ≠ sS) :
    (sS ∈ (if tcur = BiDir.down ∧ pc < pp then
             (if fc < fp * θ then [sB] else [])
           else if tcur = BiDir.up ∧ pc > pp then
             (if fc < fp * θ then [sS] else [])
           else []) ↔ (tcur = BiDir.up ∧ pc > pp ∧ fc < fp * θ)) := by
  by_cases hd : tcur = BiDir.down ∧ pc < pp
  · simp only [if_pos hd]
    constructor
    · intro hm
      exfalso
      by_cases hf : fc < fp * θ
      · rw [if_pos hf] at hm
        exact hne (List.mem_singleton.mp hm).symm
      · rw [if_neg hf] at hm
        exact List.not_mem_nil _ hm
    · rintro ⟨hc, -, -⟩
      rw [hd.1] at hc
      exact BiDir.noConfusion hc
  · by_cases hu : tcur = BiDir.up ∧ pc > pp
    · by_cases hf : fc < fp * θ
      · simp [hd, hu, hf, hu.1, hu.2]
      · simp only [if_neg hd, if_pos hu, if_neg hf, List.not_mem_nil,
          false_iff]
        rintro ⟨-, -, hc⟩
        exact hf hc
    · simp only [if_neg hd, if_neg hu, List.not_mem_nil, false_iff]
      rintro ⟨hc, hp, -⟩
      exact absurd ⟨hc, hp⟩ hu

/-- The two stroke-level signal records differ. -/
lemma bp1B_ne_bp1S (biList : List ChanBi) (i : Nat) :
    bp1B biList i ≠ bp1S biList i := by
  intro h
  have := congrArg (fun s => s.type) h
  exact BSType.noConfusion this

/-- The two segment-level signal records differ. -/
lemma sp1B_ne_sp1S (segList : List ChanSeg) (i : Nat) :
    sp1B segList i ≠ sp1S segList i := by
  intro h
  have := congrArg (fun s => s.type) h
  exact BSType.noConfusion this

/-- Claim C8: for strokes i and i-2 of equal direction, the analyzer emits
a first-type divergence exactly when stroke i sets a new price extreme
beyond stroke i-2 (lower end price for down strokes giving 1B, higher for
up strokes giving 1S) while its force is strictly below ninety percent of
stroke i-2's force; the identical rule at segment granularity uses an
eighty percent threshold and tags the signals as segment level. -/
theorem c8_first_type_divergence (biList : List ChanBi)
    (segList : List ChanSeg) (macd : List MACDResult) (i : Nat)
    (_hbEq : (biList.getD i default).type = (biList.getD (i - 2) default).type)
    (_hsEq : (segList.getD i default).type =
      (segList.getD (i - 2) default).type) :
    (bp1B biList i ∈ biDivSignals biList macd i ↔
      (biList.getD i default).type = BiDir.down ∧
      (biList.getD i default).stop.price <
        (biList.getD (i - 2) default).stop.price ∧
      getBiMACD macd (biList.getD i default) <
        getBiMACD macd (biList.getD (i - 2) default) * (9 / 10 : Rat)) ∧
    (bp1S biList i ∈ biDivSignals biList macd i ↔
      (biList.getD i default).type = BiDir.up ∧
      (biList.getD i default).stop.price >
        (biList.getD (i - 2) default).stop.price ∧
      getBiMACD macd (biList.getD i default) <
        getBiMACD macd (biList.getD (i - 2) default) * (9 / 10 : Rat)) ∧
    (sp1B segList i ∈ segDivSignals segList macd i ↔
      (segList.getD i default).type = BiDir.down ∧
      (segList.getD i default).stop.price <
        (segList.getD (i - 2) default).stop.price ∧
      getSegMACD macd (segList.getD i default) <
        getSegMACD macd (segList.getD (i - 2) default) * (8 / 10 : Rat)) ∧
    (sp1S segList i ∈ segDivSignals segList macd i ↔
      (segList.getD i default).type = BiDir.up ∧
      (segList.getD i default).stop.price >
        (segList.getD (i - 2) default).stop.price ∧
      getSegMACD macd (segList.getD i default) <
        getSegMACD macd (segList.getD (i - 2) default) * (8 / 10 : Rat)) :=
  ⟨divPattern_memB (biList.getD i default).type
      (biList.getD i default).stop.price
      (biList.getD (i - 2) default).stop.price
      (getBiMACD macd (biList.getD i default))
      (getBiMACD macd (biList.getD (i - 2) default)) (9 / 10)
      (bp1B biList i) (bp1S biList i) (bp1B_ne_bp1S biList i),
   divPattern_memS (biList.getD i default).type
      (biList.getD i default).stop.price
      (biList.getD (i - 2) default).stop.price
      (getBiMACD macd (biList.getD i default))
      (getBiMACD macd (biList.getD (i - 2) default)) (9 / 10)
      (bp1B biList i) (bp1S biList i) (bp1B_ne_bp1S biList i),
   divPattern_memB (segList.getD i default).type
      (segList.getD i default).stop.price
      (segList.getD (i - 2) default).stop.price
      (getSegMACD macd (segList.getD i default))
      (getSegMACD macd (segList.getD (i - 2) default)) (8 / 10)
      (sp1B segList i) (sp1S segList i) (sp1B_ne_sp1S segList i),
   divPattern_memS (segList.getD i default).type
      (segList.getD i default).stop.price
      (segList.getD (i - 2) default).stop.price
      (getSegMACD macd (segList.getD i default))
      (getSegMACD macd (segList.getD (i - 2) default)) (8 / 10)
      (sp1B segList i) (sp1S segList i) (sp1B_ne_sp1S segList i)⟩

/-- A rising zigzag of three strokes used by the C8 witness: the third
stroke makes a higher high on much weaker MACD force. -/
def exBi8 : List ChanBi :=
  [mkBi ⟨0, 0, PointType.bottom, 0, true⟩ ⟨1, 10, PointType.top, 1, true⟩,
   mkBi ⟨1, 10, PointType.top, 1, true⟩ ⟨2, 5, PointType.bottom, 2, true⟩,
   mkBi ⟨2, 5, PointType.bottom, 2, true⟩ ⟨3, 12, PointType.top, 3, true⟩]

/-- MACD histogram series for the C8 witness: strong on the first stroke's
range, weak on the third's. -/
def exMacd8 : List MACDResult := [⟨0, 0, 10⟩, ⟨0, 0, 10⟩, ⟨0, 0, 1⟩, ⟨0, 0, 1⟩]

/-- Witness for C8: on the rising zigzag the equal-direction pair (0, 2)
satisfies the new-extreme and force conditions, and the theorem instance
yields the emitted 1S signal. -/
theorem c8_first_type_divergence_witness :
    (exBi8.getD 2 default).type = (exBi8.getD 0 default).type ∧
    bp1S exBi8 2 ∈ biDivSignals exBi8 exMacd8 2 :=
  ⟨by decide,
   ((c8_first_type_divergence exBi8 exSeg4 exMacd8 2 (by decide)
      (by decide)).2.1).mpr
    ⟨by decide, by decide,
     by norm_num [exBi8, exMacd8, mkBi, getBiMACD, getRangeMACD, List.range',
       show Int.toNat 2 = 2 from rfl, show Int.toNat 0 = 0 from rfl,
       List.getElem_cons_succ, List.getElem_cons_zero]⟩⟩

/-! ## Claim C1: segment coverage of the stroke chain -/

/-- A found destruction index lies between the scan start and four from the
end of the stroke list. -/
lemma checkSegmentDestruction_bounds (biList : List ChanBi) (t : BiDir)
    (start j : Nat) (h : checkSegmentDestruction biList start t = some j) :
    start ≤ j ∧ j + 3 < biList.length := by
  unfold checkSegmentDestruction at h
  have hmem := List.mem_of_find?_eq_some h
  rw [List.mem_range'_1] at hmem
  omega

/-- Concatenation of the strokes of later segments with each segment's
shared first stroke dropped. -/
def dropHeadConcat (segs : List ChanSeg) : List ChanBi :=
  segs.flatMap (fun s => s.biList.drop 1)

/-- Overlap-adjusted concatenation of segment stroke lists: the first
segment contributes all its strokes, every later segment all but its first
(the stroke it shares with its predecessor). -/
def overlapConcat : List ChanSeg → List ChanBi
  | [] => []
  | s :: rest => s.biList ++ dropHeadConcat rest

lemma dropHeadConcat_cons (s : ChanSeg) (rest : List ChanSeg) :
    dropHeadConcat (s :: rest) = s.biList.drop 1 ++ dropHeadConcat rest := by
  simp [dropHeadConcat]

/-- Structure of the segment loop output: the overlap-adjusted
concatenation recovers the stroke chain from the start index on, the first
segment starts at the start index, and each segment starts with the last
stroke of its predecessor. -/
lemma segLoopGo_structure (biList : List ChanBi) :
    ∀ (fuel start : Nat) (t : BiDir), start < biList.length →
    overlapConcat (segLoopGo biList fuel start t) = biList.drop start ∧
    (∃ s rest, segLoopGo biList fuel start t = s :: rest ∧ s.biList ≠ [] ∧
      s.biList.head? = some (biList.getD start default)) ∧
    List.Chain' (fun s u => u.biList.head? = s.biList.getLast?)
      (segLoopGo biList fuel start t) := by
  have hclosing : ∀ (start : Nat) (t : BiDir), start < biList.length →
      overlapConcat [closingSeg biList start t] = biList.drop start ∧
      (∃ s rest, [closingSeg biList start t] = s :: rest ∧ s.biList ≠ [] ∧
        s.biList.head? = some (biList.getD start default)) ∧
      List.Chain' (fun s u => u.biList.head? = s.biList.getLast?)
        [closingSeg biList start t] := by
    intro start t hstart
    refine ⟨?_, ⟨_, _, rfl, ?_, ?_⟩, List.chain'_singleton _⟩
    · simp [overlapConcat, dropHeadConcat, closingSeg]
    · simp only [closingSeg]
      intro hc
      rw [List.drop_eq_nil_iff] at hc
      omega
    · simp only [closingSeg]
      rw [List.head?_drop, List.getElem?_eq_getElem hstart,
        List.getD_eq_getElem _ _ hstart]
  intro fuel
  induction fuel with
  | zero => intro start t hstart; exact hclosing start t hstart
  | succ fuel ih =>
    intro start t hstart
    simp only [segLoopGo]
    cases hcf : checkSegmentDestruction biList start t with
    | none => exact hclosing start t hstart
    | some j =>
      obtain ⟨hj1, hj2⟩ := checkSegmentDestruction_bounds biList t start j hcf
      have hjlt : j < biList.length := by omega
      obtain ⟨ihCov, ⟨s, rest, hseq, hne, hhead⟩, ihChain⟩ :=
        ih j (flipDir t) hjlt
      obtain ⟨b, tl, hsbl⟩ : ∃ b tl, s.biList = b :: tl := by
        match hx : s.biList with
        | [] => exact absurd hx hne
        | b :: tl => exact ⟨b, tl, rfl⟩
      have hb : b = biList.getD j default := by
        rw [hsbl] at hhead
        simpa using hhead
      have hdropj : biList.drop j =
          biList.getD j default :: biList.drop (j + 1) := by
        rw [List.drop_eq_getElem_cons hjlt, List.getD_eq_getElem _ _ hjlt]
      have htl : tl ++ dropHeadConcat rest = biList.drop (j + 1) := by
        rw [hseq] at ihCov
        rw [show overlapConcat (s :: rest) =
          s.biList ++ dropHeadConcat rest from rfl, hsbl, hb, hdropj] at ihCov
        simp only [List.cons_append, List.cons.injEq] at ihCov
        exact ihCov.2
      obtain ⟨m, hm⟩ : ∃ m, j + 1 - start = m + 1 := ⟨j - start, by omega⟩
      have hdrops : biList.drop start =
          biList.getD start default :: biList.drop (start + 1) := by
        rw [List.drop_eq_getElem_cons hstart, List.getD_eq_getElem _ _ hstart]
      have hslice : (confirmedSeg biList start j t).biList =
          (biList.drop start).take (j + 1 - start) := rfl
      refine ⟨?_, ⟨_, _, rfl, ?_, ?_⟩, ?_⟩
      · show (confirmedSeg biList start j t).biList ++
          dropHeadConcat (segLoopGo biList fuel j (flipDir t)) =
          biList.drop start
        rw [hseq, dropHeadConcat_cons, hsbl]
        simp only [List.drop_succ_cons, List.drop_zero]
        rw [hslice, htl, show biList.drop (j + 1) =
          (biList.drop start).drop (j + 1 - start) from by
            rw [List.drop_drop]
            congr 1
            omega]
        exact List.take_append_drop _ _
      · rw [hslice, hm, hdrops]
        simp
      · rw [hslice, hm, hdrops]
        simp
      · show List.Chain' (fun s u => u.biList.head? = s.biList.getLast?)
          (confirmedSeg biList start j t :: segLoopGo biList fuel j (flipDir t))
        rw [hseq]
        refine List.chain'_cons.mpr ⟨?_, by rw [← hseq]; exact ihChain⟩
        rw [hsbl] at hhead ⊢
        rw [hslice]
        have hlen : ((biList.drop start).take (j + 1 - start)).length =
            j + 1 - start := by
          rw [List.length_take, List.length_drop]
          omega
        rw [List.getLast?_eq_getElem?, hlen,
          List.getElem?_take_of_lt (by omega), List.getElem?_drop,
          show start + (j + 1 - start - 1) = j from by omega,
          List.getElem?_eq_getElem hjlt,
          ← List.getD_eq_getElem biList default hjlt]
        exact hhead

/-- Claim C1 amended: for a stroke chain of at least three strokes, the
segments cover the whole chain with consecutive segments sharing exactly
the boundary stroke: dropping each later segment's first stroke, the
concatenated stroke lists reproduce the chain exactly; the first segment
starts at stroke zero and each segment starts with the last stroke of its
predecessor. -/
theorem c1_amended_segments_cover (biList : List ChanBi)
    (h3 : 3 ≤ biList.length) :
    overlapConcat (generateSegmentsStrict biList) = biList ∧
    (∃ s rest, generateSegmentsStrict biList = s :: rest ∧
      s.biList.head? = some (biList.getD 0 default)) ∧
    List.Chain' (fun s u => u.biList.head? = s.biList.getLast?)
      (generateSegmentsStrict biList) := by
  have h0 : 0 < biList.length := by omega
  have hgen : generateSegmentsStrict biList =
      segLoopGo biList (2 * biList.length + 2) 0 (biList.headD default).type := by
    unfold generateSegmentsStrict
    rw [if_neg (by omega)]
  obtain ⟨hcov, ⟨s, rest, hseq, -, hhead⟩, hchain⟩ :=
    segLoopGo_structure biList (2 * biList.length + 2) 0
      (biList.headD default).type h0
  rw [List.drop_zero] at hcov
  exact ⟨by rw [hgen]; exact hcov,
    ⟨s, rest, by rw [hgen]; exact hseq, hhead⟩,
    by rw [hgen]; exact hchain⟩

/-- The six-stroke zigzag on which the segment stage confirms a first
segment of one stroke and then reuses that stroke in the next segment. -/
def exBiC1 : List ChanBi :=
  [mkBi ⟨0, 0, PointType.bottom, 0, true⟩ ⟨1, 10, PointType.top, 1, true⟩,
   mkBi ⟨1, 10, PointType.top, 1, true⟩ ⟨2, 5, PointType.bottom, 2, true⟩,
   mkBi ⟨2, 5, PointType.bottom, 2, true⟩ ⟨3, 8, PointType.top, 3, true⟩,
   mkBi ⟨3, 8, PointType.top, 3, true⟩ ⟨4, 2, PointType.bottom, 4, true⟩,
   mkBi ⟨4, 2, PointType.bottom, 4, true⟩ ⟨5, 4, PointType.top, 5, true⟩,
   mkBi ⟨5, 4, PointType.top, 5, true⟩ ⟨6, 1, PointType.bottom, 6, true⟩]

/-- Counterexample for claim C1 as stated: on this six-stroke chain the
plain concatenation of the segments' stroke lists has seven strokes, the
first stroke belonging to both emitted segments, so the segments do not
cover every stroke exactly once. -/
theorem c1_counterexample :
    ((generateSegmentsStrict exBiC1).map (fun s => s.biList)).flatten ≠
      exBiC1 ∧
    ((generateSegmentsStrict exBiC1).map (fun s => s.biList)).flatten.length
      = 7 ∧
    exBiC1.length = 6 ∧
    List.countP (fun b => b == exBiC1.getD 0 default)
      ((generateSegmentsStrict exBiC1).map (fun s => s.biList)).flatten = 2 := by
  decide

/-- Witness for the amended C1 at the concrete six-stroke chain. -/
theorem c1_amended_segments_cover_witness :
    3 ≤ exBiC1.length ∧
    overlapConcat (generateSegmentsStrict exBiC1) = exBiC1 :=
  ⟨by decide, (c1_amended_segments_cover exBiC1 (by decide)).1⟩
